import Mathlib

/-!
Verification development for the azul-runner plugin-execution runtime.

The repository ships only the test-suite sources; the `azul_runner`
implementation (models, job execution context, event-tree assembler,
monitor, coordinator) is absent.  The definitions below are therefore
modelled from the specification, with the repository's own tests taken as
the authority on every concrete behaviour they pin down (expected event
lists, orderings, error states and messages).  Content identifiers
(SHA-256 digests of the attached bytes) are abstracted as the byte
sequences themselves, which preserves the identity/dedup semantics of a
collision-free digest; byte sequences are represented as `String`.
-/

namespace AzulRunner

/-- Modelled from the spec: the closed vocabulary of job outcome codes
(`State.Label` in the tests). -/
inductive SLabel where
  | completed
  | completedEmpty
  | errorInput
  | errorOutput
  | errorException
  | errorOom
deriving DecidableEq, Repr

/-- Modelled from the spec: a job `State` is a label plus an optional
failure name and optional message (`State(label, failure_name, message)`). -/
structure State where
  label : SLabel
  failureName : Option String := none
  message : Option String := none
deriving DecidableEq, Repr

/-- Modelled from the spec: runtime kinds of feature values.  Binary
content is a `String` (byte abstraction) and datetimes are timestamps. -/
inductive FVal where
  | str (s : String)
  | int (n : ℤ)
  | bin (b : String)
  | date (t : ℕ)
deriving DecidableEq, Repr

/-- Lexicographic ordering of character lists by code point (Python's
string comparison, which the assembler's sorting follows). -/
def charListLe : List Char → List Char → Bool
  | [], _ => true
  | _ :: _, [] => false
  | a :: as, b :: bs =>
      if a.toNat < b.toNat then true
      else if b.toNat < a.toNat then false
      else charListLe as bs

/-- Lexicographic string order by code point. -/
def strLe (a b : String) : Prop := charListLe a.data b.data = true

instance : DecidableRel strLe := fun _ _ => inferInstanceAs (Decidable (_ = true))

theorem charListLe_refl : ∀ l, charListLe l l = true
  | [] => rfl
  | a :: as => by simp [charListLe, charListLe_refl as]

theorem charListLe_trans :
    ∀ {x y z : List Char}, charListLe x y = true → charListLe y z = true →
      charListLe x z = true := by
  intro x
  induction x with
  | nil => intro y z h1 h2; rfl
  | cons a as ih =>
    intro y z h1 h2
    cases y with
    | nil => simp [charListLe] at h1
    | cons b bs =>
      cases z with
      | nil => simp [charListLe] at h2
      | cons c cs =>
        simp only [charListLe] at h1 h2 ⊢
        split_ifs at h1 h2 ⊢ <;>
          first | rfl | omega | exact ih h1 h2 | simp at h1 | simp at h2

theorem char_eq_of_toNat_eq {a b : Char} (h : a.toNat = b.toNat) : a = b :=
  Char.eq_of_val_eq (UInt32.eq_of_toBitVec_eq (BitVec.toNat_injective h))

theorem charListLe_antisymm :
    ∀ {x y : List Char}, charListLe x y = true → charListLe y x = true → x = y := by
  intro x
  induction x with
  | nil =>
    intro y h1 h2
    cases y with
    | nil => rfl
    | cons b bs => simp [charListLe] at h2
  | cons a as ih =>
    intro y h1 h2
    cases y with
    | nil => simp [charListLe] at h1
    | cons b bs =>
      simp only [charListLe] at h1 h2
      split_ifs at h1 h2 <;> first
        | omega
        | simp at h1
        | simp at h2
        | exact congrArg₂ List.cons (char_eq_of_toNat_eq (by omega)) (ih h1 h2)

theorem charListLe_total : ∀ (x y : List Char), charListLe x y = true ∨ charListLe y x = true := by
  intro x
  induction x with
  | nil => intro y; exact Or.inl rfl
  | cons a as ih =>
    intro y
    cases y with
    | nil => exact Or.inr rfl
    | cons b bs =>
      simp only [charListLe]
      rcases ih bs with h | h <;> split_ifs <;> simp_all <;> omega

theorem strLe_refl (a : String) : strLe a a := charListLe_refl _

theorem strLe_trans {a b c : String} (h1 : strLe a b) (h2 : strLe b c) : strLe a c :=
  charListLe_trans h1 h2

theorem strLe_antisymm {a b : String} (h1 : strLe a b) (h2 : strLe b a) : a = b := by
  cases a; cases b
  exact congrArg String.mk (charListLe_antisymm h1 h2)

theorem strLe_total (a b : String) : strLe a b ∨ strLe b a := charListLe_total _ _

/-- Constructor rank, used to order values of different runtime kinds. -/
def FVal.rank : FVal → ℕ
  | .str _ => 0
  | .int _ => 1
  | .bin _ => 2
  | .date _ => 3

/-- Ordering on runtime values: same-kind values compare by their
underlying order, different kinds by constructor rank. -/
def vLe : FVal → FVal → Prop
  | .str a, .str b => strLe a b
  | .int a, .int b => a ≤ b
  | .bin a, .bin b => strLe a b
  | .date a, .date b => a ≤ b
  | a, b => a.rank < b.rank

instance : DecidableRel vLe := fun a b =>
  match a, b with
  | .str a, .str b => inferInstanceAs (Decidable (strLe a b))
  | .int a, .int b => inferInstanceAs (Decidable (a ≤ b))
  | .bin a, .bin b => inferInstanceAs (Decidable (strLe a b))
  | .date a, .date b => inferInstanceAs (Decidable (a ≤ b))
  | .str a, .int b => inferInstanceAs (Decidable (FVal.rank (.str a) < FVal.rank (.int b)))
  | .str a, .bin b => inferInstanceAs (Decidable (FVal.rank (.str a) < FVal.rank (.bin b)))
  | .str a, .date b => inferInstanceAs (Decidable (FVal.rank (.str a) < FVal.rank (.date b)))
  | .int a, .str b => inferInstanceAs (Decidable (FVal.rank (.int a) < FVal.rank (.str b)))
  | .int a, .bin b => inferInstanceAs (Decidable (FVal.rank (.int a) < FVal.rank (.bin b)))
  | .int a, .date b => inferInstanceAs (Decidable (FVal.rank (.int a) < FVal.rank (.date b)))
  | .bin a, .str b => inferInstanceAs (Decidable (FVal.rank (.bin a) < FVal.rank (.str b)))
  | .bin a, .int b => inferInstanceAs (Decidable (FVal.rank (.bin a) < FVal.rank (.int b)))
  | .bin a, .date b => inferInstanceAs (Decidable (FVal.rank (.bin a) < FVal.rank (.date b)))
  | .date a, .str b => inferInstanceAs (Decidable (FVal.rank (.date a) < FVal.rank (.str b)))
  | .date a, .int b => inferInstanceAs (Decidable (FVal.rank (.date a) < FVal.rank (.int b)))
  | .date a, .bin b => inferInstanceAs (Decidable (FVal.rank (.date a) < FVal.rank (.bin b)))

theorem vLe_trans : ∀ {a b c : FVal}, vLe a b → vLe b c → vLe a c := by
  intro a b c
  cases a <;> cases b <;> cases c <;> simp only [vLe, FVal.rank] <;>
    intro h1 h2 <;> first | omega | exact le_trans h1 h2 | exact strLe_trans h1 h2

theorem vLe_antisymm : ∀ {a b : FVal}, vLe a b → vLe b a → a = b := by
  intro a b
  cases a <;> cases b <;> simp only [vLe, FVal.rank] <;>
    intro h1 h2 <;>
    first
      | omega
      | exact congrArg _ (le_antisymm h1 h2)
      | exact congrArg _ (strLe_antisymm h1 h2)

theorem vLe_total : ∀ (x y : FVal), vLe x y ∨ vLe y x := by
  intro x y
  cases x <;> cases y <;> simp only [vLe, FVal.rank] <;>
    first | omega | exact le_total _ _ | exact strLe_total _ _

theorem vLe_refl (a : FVal) : vLe a a := by
  cases a <;> simp only [vLe] <;> first | exact strLe_refl _ | exact le_refl _

/-- Modelled from the spec: a feature value is a value with an optional
label. -/
structure FeatureValue where
  val : FVal
  label : Option String := none
deriving DecidableEq, Repr

/-- Ordering on optional labels: absent labels come first. -/
def olLe : Option String → Option String → Prop
  | none, _ => True
  | some _, none => False
  | some a, some b => strLe a b

instance : DecidableRel olLe := fun a b =>
  match a, b with
  | none, _ => inferInstanceAs (Decidable True)
  | some _, none => inferInstanceAs (Decidable False)
  | some a, some b => inferInstanceAs (Decidable (strLe a b))

theorem olLe_trans : ∀ {a b c : Option String}, olLe a b → olLe b c → olLe a c := by
  intro a b c
  cases a <;> cases b <;> cases c <;> simp only [olLe] <;>
    intro h1 h2 <;> first | trivial | exact strLe_trans h1 h2

theorem olLe_antisymm : ∀ {a b : Option String}, olLe a b → olLe b a → a = b := by
  intro a b
  cases a <;> cases b <;> simp only [olLe] <;>
    intro h1 h2 <;> first | trivial | exact congrArg _ (strLe_antisymm h1 h2)

theorem olLe_total : ∀ (a b : Option String), olLe a b ∨ olLe b a := by
  intro a b
  cases a <;> cases b <;> simp only [olLe] <;> first | trivial | exact strLe_total _ _

/-- Lexicographic ordering on feature values: by value, ties broken by
label (used when the assembler sorts a value collection). -/
def fvLe (a b : FeatureValue) : Prop :=
  vLe a.val b.val ∧ (vLe b.val a.val → olLe a.label b.label)

instance : DecidableRel fvLe := fun a b =>
  inferInstanceAs (Decidable (_ ∧ _))

instance : IsTrans FeatureValue fvLe where
  trans a b c h1 h2 := by
    refine ⟨vLe_trans h1.1 h2.1, fun hca => ?_⟩
    exact olLe_trans (h1.2 (vLe_trans h2.1 hca)) (h2.2 (vLe_trans hca h1.1))

instance : IsAntisymm FeatureValue fvLe where
  antisymm a b h1 h2 := by
    obtain ⟨v1, l1⟩ := a
    obtain ⟨v2, l2⟩ := b
    have hv : v1 = v2 := vLe_antisymm h1.1 h2.1
    subst hv
    have hl : l1 = l2 := olLe_antisymm (h1.2 (vLe_refl _)) (h2.2 (vLe_refl _))
    simp [hl]

instance : IsTotal FeatureValue fvLe where
  total a b := by
    rcases vLe_total a.val b.val with h | h
    · by_cases h' : vLe b.val a.val
      · rcases olLe_total a.label b.label with hl | hl
        · exact Or.inl ⟨h, fun _ => hl⟩
        · exact Or.inr ⟨h', fun _ => hl⟩
      · exact Or.inl ⟨h, fun hc => absurd hc h'⟩
    · by_cases h' : vLe a.val b.val
      · rcases olLe_total a.label b.label with hl | hl
        · exact Or.inl ⟨h', fun _ => hl⟩
        · exact Or.inr ⟨h, fun _ => hl⟩
      · exact Or.inr ⟨h, fun hc => absurd hc h'⟩

/-- Modelled from the spec: the closed set of declared feature value
kinds. -/
inductive FeatureType where
  | string
  | integer
  | binary
  | datetime
  | filepath
  | uri
  | unspec
deriving DecidableEq, Repr

/-- Modelled from the spec: a feature declaration, keyed by name (the
description plays no behavioural role and is omitted). -/
structure Feature where
  name : String
  ftype : FeatureType
deriving DecidableEq, Repr

/-- Modelled from the spec and tests: whether a runtime value is
acceptable for a declared kind.  `filepath`/`uri` values are path/URI
strings (both coerce through the same legacy URI representation).  The
tests pin the `unspec` kind to accept string values and reject integers
(`test_add_child_feature_errors` rejects `555` and `4` for
`example_unspec` while accepting stringified values). -/
def typeMatch : FeatureType → FVal → Bool
  | .string, .str _ => true
  | .integer, .int _ => true
  | .binary, .bin _ => true
  | .datetime, .date _ => true
  | .filepath, .str _ => true
  | .uri, .str _ => true
  | .unspec, .str _ => true
  | _, _ => false

/-- A feature schema: the (already merged) list of declarations active
for the executing plugin. -/
def Schema := List Feature

/-- Look up a declaration by name. -/
def findDecl (schema : Schema) (name : String) : Option Feature :=
  schema.find? (fun f => f.name = name)

/-- Modelled from the spec: an entity identifier is a content identifier
(digest of the attached bytes, abstracted as the bytes) or a
caller-chosen opaque key. -/
inductive EntityId where
  | content (b : String)
  | key (k : String)
deriving DecidableEq, Repr

/-- A relationship mapping (arbitrary key/value pairs). -/
def Rel := List (String × String)

instance : DecidableEq Rel := inferInstanceAs (DecidableEq (List (String × String)))

/-- Modelled from the spec: a data attachment on an entity — content
identifier, label and optional language metadata. -/
structure DataAtt where
  hash : String
  dlabel : String
  language : Option String := none
deriving DecidableEq, Repr

/-- Modelled from the spec: one entry of an assembled event's ancestor
chain ("an ordered list of ancestor references, each itself carrying its
own identifier/relationship/derived filename"), plus the parent-sha
override when the ancestor was cross-linked under an explicit alternate
parent. -/
structure ChainEnt where
  sha : EntityId
  relationship : Rel := []
  overrideSha : Option String := none
  filename : Option String := none
deriving DecidableEq

/-- Modelled from the spec: an assembled event — ancestor chain (head is
the immediate parent, empty for the root entity's own event), entity
identifier, relationship, parent-sha override, validated features and
data attachments. -/
structure Event where
  parent : List ChainEnt := []
  sha : EntityId
  relationship : Rel := []
  overrideSha : Option String := none
  features : List (String × List FeatureValue) := []
  data : List DataAtt := []
deriving DecidableEq

/-- Record of one child entity created during execution: its creation
index, parent (none = the job's root entity, some i = the i-th created
entity), identifier, relationship, parent-sha override and the raw
feature/data logs. -/
structure EntRec where
  idx : ℕ
  parent : Option ℕ
  sha : EntityId
  rel : Rel
  overrideSha : Option String
  featLog : List (String × List FeatureValue)
  dataLog : List DataAtt
deriving DecidableEq

/-- Modelled from the spec: the pending operations recorded by the
execution context.  Entity handles are encoded as creation indices
(`none` targets the job's root entity). -/
inductive Op where
  | addChild (parent : Option ℕ) (key : String) (rel : Rel) (overrideSha : Option String)
  | addChildWithData (parent : Option ℕ) (rel : Rel) (content : String)
  | addFeatureValues (ent : Option ℕ) (name : String) (vals : List (Option FeatureValue))
  | addData (ent : Option ℕ) (dlabel : String) (language : Option String) (content : String)

/-- Validation-failure message for an undeclared feature name, as pinned
by the tests. -/
def undeclaredMsg (name : String) : String :=
  "ResultError: Plugin tried to set undeclared features: " ++ name

/-- Validation-failure message for a wrong-kind value, as pinned by the
tests. -/
def mismatchMsg (name : String) : String :=
  "Plugin returned a value with incorrect type for feature: " ++ name

/-- Message of the `ValueError` raised on a 0-byte content attachment,
as pinned by the tests. -/
def emptyDataMsg : String := "tried to add data file with 0 bytes"

/-- The state of the execution context while replaying the pending
operations: the root entity's logs, the created entities, the content
store and the first error raised (if any). -/
structure Ctx where
  rootFeat : List (String × List FeatureValue) := []
  rootData : List DataAtt := []
  ents : List EntRec := []
  blobs : List String := []
  err : Option State := none

/-- Record a blob in the content store, deduplicating by identifier. -/
def addBlob (blobs : List String) (b : String) : List String :=
  if b ∈ blobs then blobs else blobs ++ [b]

/-- Whether an entity handle refers to an existing entity. -/
def handleValid (len : ℕ) : Option ℕ → Bool
  | none => true
  | some k => k < len

/-- Append a log entry to the targeted entity's feature log (root when
the handle is `none`). -/
def appendFeat (c : Ctx) (ent : Option ℕ) (entry : String × List FeatureValue) : Ctx :=
  match ent with
  | none => { c with rootFeat := c.rootFeat ++ [entry] }
  | some k => { c with ents := c.ents.map (fun r => if r.idx = k then { r with featLog := r.featLog ++ [entry] } else r) }

/-- Append a data attachment to the targeted entity's data log (root
when the handle is `none`). -/
def appendData (c : Ctx) (ent : Option ℕ) (att : DataAtt) : Ctx :=
  match ent with
  | none => { c with rootData := c.rootData ++ [att] }
  | some k => { c with ents := c.ents.map (fun r => if r.idx = k then { r with dataLog := r.dataLog ++ [att] } else r) }

/-- The state produced by a `ValueError` escaping the plugin (surfaced
through the generic uncaught-exception path, as the tests pin for the
0-byte attachment). -/
def valueErrorState : State :=
  ⟨.errorException, some "ValueError", some emptyDataMsg⟩

/-- The state produced by an output-validation failure. -/
def outputErrorState (msg : String) : State :=
  ⟨.errorOutput, some "Invalid Plugin Output", some msg⟩

/-- Modelled from the spec: replay one pending operation of the
execution context.  Content attachments of zero length raise the
`ValueError`; feature emissions are validated against the schema
(undeclared name, then value kind), and the first failure aborts the
job.  `addChildWithData` attaches the content under the `content` label
and keys the child by the content identifier. -/
def applyOp (schema : Schema) (c : Ctx) : Op → Ctx
  | .addChild parent key rel ov =>
      if handleValid c.ents.length parent then
        { c with ents := c.ents ++ [⟨c.ents.length, parent, .key key, rel, ov, [], []⟩] }
      else c
  | .addChildWithData parent rel content =>
      if content = "" then { c with err := some valueErrorState }
      else if handleValid c.ents.length parent then
        { c with
          ents := c.ents ++ [⟨c.ents.length, parent, .content content, rel, none, [],
                              [⟨content, "content", none⟩]⟩],
          blobs := addBlob c.blobs content }
      else c
  | .addFeatureValues ent name vals =>
      match findDecl schema name with
      | none => { c with err := some (outputErrorState (undeclaredMsg name)) }
      | some f =>
          if vals.any (fun o => match o with
                                 | some fv => !typeMatch f.ftype fv.val
                                 | none => false) then
            { c with err := some (outputErrorState (mismatchMsg name)) }
          else appendFeat c ent (name, vals.filterMap id)
  | .addData ent dlabel lang content =>
      if content = "" then { c with err := some valueErrorState }
      else { appendData c ent ⟨content, dlabel, lang⟩ with blobs := addBlob c.blobs content }

/-- Replay one operation unless an error was already raised (the raise
aborts `execute`, so the remaining operations are not executed). -/
def stepOp (schema : Schema) (c : Ctx) (op : Op) : Ctx :=
  if c.err.isSome then c else applyOp schema c op

/-- Replay all pending operations. -/
def foldCtx (schema : Schema) (ops : List Op) : Ctx :=
  ops.foldl (stepOp schema) {}

/-- Modelled from the spec: a value collection is deduplicated and
sorted before being exposed in the final tree. -/
def sortedDedup (l : List FeatureValue) : List FeatureValue :=
  List.insertionSort fvLe l.dedup

/-- Collect the values logged for one feature name. -/
def valuesFor (log : List (String × List FeatureValue)) (n : String) : List FeatureValue :=
  (log.filter (fun p => p.1 = n)).flatMap Prod.snd

/-- Group a feature log by name (first-emission order) and expose each
name's deduplicated, sorted value collection. -/
def groupFeats (log : List (String × List FeatureValue)) : List (String × List FeatureValue) :=
  (log.map Prod.fst).dedup.map (fun n => (n, sortedDedup (valuesFor log n)))

/-- Modelled from the spec: the `filename` attribute a parent-chain
entry exposes — the lexicographically smallest of the entity's
`filename` feature values (head of the sorted collection), if any. -/
def filenameOfLog (log : List (String × List FeatureValue)) : Option String :=
  match sortedDedup (valuesFor log "filename") with
  | [] => none
  | v :: _ =>
      match v.val with
      | .str s => some s
      | _ => none

/-- Walk up captured parent references to build an ancestor chain; the
fuel bounds the walk (entity parents always have smaller creation
indices, so `ents.length` steps suffice). -/
def chainAux (rootSha : String) (rootFn : Option String) (ents : List EntRec) :
    ℕ → Option ℕ → List ChainEnt
  | _, none => [⟨.key rootSha, [], none, rootFn⟩]
  | 0, some _ => []
  | fuel + 1, some j =>
      match ents[j]? with
      | none => []
      | some r => ⟨r.sha, r.rel, r.overrideSha, filenameOfLog r.featLog⟩ ::
          chainAux rootSha rootFn ents fuel r.parent

/-- Ancestor chain of an entity handle. -/
def chainOf (rootSha : String) (rootFn : Option String) (ents : List EntRec)
    (p : Option ℕ) : List ChainEnt :=
  chainAux rootSha rootFn ents ents.length p

/-- The merge key of a created entity: its parent handle, identifier,
relationship and parent-sha override. -/
def keyOf (r : EntRec) : Option ℕ × EntityId × Rel × Option String :=
  (r.parent, r.sha, r.rel, r.overrideSha)

/-- Two created entities are assembled into the same event when they
share parent, identifier, relationship and parent-sha override. -/
def sameKey (a b : EntRec) : Prop := keyOf a = keyOf b

instance : ∀ a b, Decidable (sameKey a b) := fun _ _ =>
  inferInstanceAs (Decidable (_ = _))

/-- Fold one entity into the assembly accumulator: a duplicate of an
already-present key has its feature and data logs appended to that
entry, otherwise the entity is appended at the end. -/
def insertEnt (acc : List EntRec) (e : EntRec) : List EntRec :=
  match acc with
  | [] => [e]
  | a :: rest =>
      if sameKey a e then
        { a with featLog := a.featLog ++ e.featLog, dataLog := a.dataLog ++ e.dataLog } :: rest
      else a :: insertEnt rest e

/-- Merge duplicate-key entities, keeping first-creation order (the
tests pin this: a duplicate child contributes its features and data to
the first occurrence's event). -/
def mergeEnts (l : List EntRec) : List EntRec :=
  l.foldl insertEnt []

/-- The assembled event of one (merged) entity record. -/
def toEvent (rootSha : String) (rootFn : Option String) (ents : List EntRec)
    (r : EntRec) : Event :=
  ⟨chainOf rootSha rootFn ents r.parent, r.sha, r.rel, r.overrideSha,
   groupFeats r.featLog, r.dataLog.dedup⟩

/-- Modelled from the spec: the result handed back for one job — state,
ordered events and the content map (a deduplicated list of blobs, each
standing for its identifier). -/
structure JobResult where
  state : State
  events : List Event := []
  data : List String := []
deriving DecidableEq

/-- Modelled from the spec: the event-tree assembler.  The root
entity's event (emitted only when the root contributed features or
data) comes first, then the created entities in first-creation order
with duplicate keys merged; a job that produced nothing yields
`COMPLETED_EMPTY` with zero events. -/
def assemble (rootSha : String) (c : Ctx) : JobResult :=
  let rootFn := filenameOfLog c.rootFeat
  let merged := mergeEnts c.ents
  let evs :=
    (if c.rootFeat = [] ∧ c.rootData = [] then []
     else [{ sha := .key rootSha, features := groupFeats c.rootFeat,
             data := c.rootData.dedup : Event }]) ++
    merged.map (toEvent rootSha rootFn c.ents)
  if evs = [] then ⟨⟨.completedEmpty, none, none⟩, [], []⟩
  else ⟨⟨.completed, none, none⟩, evs, c.blobs⟩

/-- Modelled from the spec: run one job — replay the pending operations
recorded by the plugin's `execute`; a raised error is surfaced as the
job state with no output; an explicit returned `State` is surfaced
as-is with no output; otherwise the event tree is assembled. -/
def runJob (schema : Schema) (ops : List Op) (ret : Option State) (rootSha : String) :
    JobResult :=
  let c := foldCtx schema ops
  match c.err with
  | some e => ⟨e, [], []⟩
  | none =>
      match ret with
      | some s => ⟨s, [], []⟩
      | none => assemble rootSha c

/-- The feature schema of the tests' `DummyPlugin`, together with the
`filename` declaration inherited from the base plugin (the tests set
`filename` values without declaring the feature themselves). -/
def dummySchema : Schema :=
  [⟨"example_string", .string⟩, ⟨"example_int", .integer⟩, ⟨"example_raw", .binary⟩,
   ⟨"example_date", .datetime⟩, ⟨"example_unspec", .unspec⟩, ⟨"example_path", .filepath⟩,
   ⟨"example_uri", .uri⟩, ⟨"filename", .string⟩]

/-- Shorthand: an unlabelled string feature value. -/
def sv (s : String) : Option FeatureValue := some ⟨.str s, none⟩

/-- Shorthand: an unlabelled integer feature value. -/
def iv (n : ℤ) : Option FeatureValue := some ⟨.int n, none⟩

/-- The pending operations issued by the tests' `DPAddChildResults3`
plugin: root features, three `add_child_with_data` children (the third
a duplicate of the first with a different feature payload), and extra
data attachments. -/
def dp3Ops : List Op :=
  [ .addFeatureValues none "example_unspec" [sv "1337"],
    .addFeatureValues none "filename" [sv "bad.exe"],
    .addChildWithData none [("rel", "1")] "some content",
    .addFeatureValues (some 0) "example_unspec" [sv "3", sv "horse", sv "1", sv "2"],
    .addChildWithData none [("rel", "2")] "other content",
    .addFeatureValues (some 1) "example_string" [sv "value", sv "other value"],
    .addData (some 1) "report" (some "value2") "more content",
    .addChildWithData none [("rel", "1")] "some content",
    .addFeatureValues (some 2) "example_unspec" [sv "some new value"],
    .addData (some 2) "test" (some "value") "some more content" ]

example :
    runJob dummySchema dp3Ops none "test_entity" =
      ⟨⟨.completed, none, none⟩,
       [⟨[], .key "test_entity", [], none,
         [("example_unspec", [⟨.str "1337", none⟩]), ("filename", [⟨.str "bad.exe", none⟩])], []⟩,
        ⟨[⟨.key "test_entity", [], none, some "bad.exe"⟩], .content "some content",
         [("rel", "1")], none,
         [("example_unspec", [⟨.str "1", none⟩, ⟨.str "2", none⟩, ⟨.str "3", none⟩,
                              ⟨.str "horse", none⟩, ⟨.str "some new value", none⟩])],
         [⟨"some content", "content", none⟩, ⟨"some more content", "test", some "value"⟩]⟩,
        ⟨[⟨.key "test_entity", [], none, some "bad.exe"⟩], .content "other content",
         [("rel", "2")], none,
         [("example_string", [⟨.str "other value", none⟩, ⟨.str "value", none⟩])],
         [⟨"other content", "content", none⟩, ⟨"more content", "report", some "value2"⟩]⟩],
       ["some content", "other content", "more content", "some more content"]⟩ := by
  decide

/-- The pending operations of the tests' `DPAddGrandChildResults2`
plugin: two children (the second under an explicit alternate parent
sha), then three grandchildren under them. -/
def dpg2Ops : List Op :=
  [ .addChild none "child" [] none,
    .addChild none "child2" [] (some "input stream content"),
    .addChild (some 0) "foo" [("rel", "1")] none,
    .addFeatureValues (some 2) "example_unspec" [sv "3", sv "horse", sv "1", sv "2"],
    .addData (some 2) "text" none "some content",
    .addChildWithData (some 0) [] "2",
    .addFeatureValues (some 3) "example_string" [sv "value", sv "other value"],
    .addData (some 3) "assemblyline" none "other content",
    .addData (some 3) "report" none "more content",
    .addChildWithData (some 1) [("rel", "3")] "3",
    .addFeatureValues (some 4) "example_int" [iv 42] ]

example :
    (runJob dummySchema dpg2Ops none "test_entity").events.map Event.sha =
      [.key "child", .key "child2", .key "foo", .content "2", .content "3"] := by
  decide

example :
    ((runJob dummySchema dpg2Ops none "test_entity").events.map
      (fun e => e.parent.map ChainEnt.sha)) =
      [[.key "test_entity"], [.key "test_entity"],
       [.key "child", .key "test_entity"], [.key "child", .key "test_entity"],
       [.key "child2", .key "test_entity"]] := by
  decide

example :
    (runJob dummySchema
      [ .addChildWithData none [("rt", "rv")] "",
        .addFeatureValues (some 0) "example_string" [none] ] none "test_entity") =
      ⟨valueErrorState, [], []⟩ := by
  decide

example :
    (runJob dummySchema
      [ .addChild none "foo" [("rt", "rv")] none,
        .addFeatureValues (some 0) "example_unspec" [sv "1", sv "2", none] ]
      none "test_entity").events =
      [⟨[⟨.key "test_entity", [], none, none⟩], .key "foo", [("rt", "rv")], none,
        [("example_unspec", [⟨.str "1", none⟩, ⟨.str "2", none⟩])], []⟩] := by
  decide

example :
    (runJob dummySchema
      [ .addChild none "foo" [("rt", "rv")] none,
        .addFeatureValues (some 0) "example_unspec" [none] ]
      none "test_entity").events =
      [⟨[⟨.key "test_entity", [], none, none⟩], .key "foo", [("rt", "rv")], none,
        [("example_unspec", [])], []⟩] := by
  decide

example :
    (runJob dummySchema
      [ .addChild none "cid" [("reltype", "dummy")] none,
        .addFeatureValues (some 0) "filename" [sv "alpha.3"],
        .addFeatureValues (some 0) "filename" [sv "alpha.1"],
        .addChild (some 0) "cid2" [("reltype", "dummy2")] none ]
      none "test_entity").events =
      [⟨[⟨.key "test_entity", [], none, none⟩], .key "cid", [("reltype", "dummy")], none,
        [("filename", [⟨.str "alpha.1", none⟩, ⟨.str "alpha.3", none⟩])], []⟩,
       ⟨[⟨.key "cid", [("reltype", "dummy")], none, some "alpha.1"⟩,
         ⟨.key "test_entity", [], none, none⟩], .key "cid2", [("reltype", "dummy2")], none,
        [], []⟩] := by
  decide

example :
    (runJob dummySchema
      [ .addChild none "foo" [("rel", "1")] none,
        .addFeatureValues (some 0) "example_unspec" [sv "3", sv "horse", sv "1", sv "2"],
        .addData (some 0) "test" none "some content" ]
      (some ⟨.errorInput, some "Generic Error", none⟩) "test_entity") =
      ⟨⟨.errorInput, some "Generic Error", none⟩, [], []⟩ := by
  decide

example :
    (runJob dummySchema
      [ .addFeatureValues none "filename" [sv "bad.exe"],
        .addChild none "foo" [] none,
        .addFeatureValues (some 0) "example_unspec" [sv "3", sv "horse", sv "1", sv "2"],
        .addData (some 0) "test" none "some content",
        .addChild (some 0) "bar" [("rel", "extracted")] none,
        .addFeatureValues (some 1) "example_int" [iv 8, iv 7, iv 6],
        .addData (some 1) "content" none "Grandchild binary content" ]
      none "test_entity").events =
      [⟨[], .key "test_entity", [], none, [("filename", [⟨.str "bad.exe", none⟩])], []⟩,
       ⟨[⟨.key "test_entity", [], none, some "bad.exe"⟩], .key "foo", [], none,
        [("example_unspec", [⟨.str "1", none⟩, ⟨.str "2", none⟩, ⟨.str "3", none⟩,
                             ⟨.str "horse", none⟩])],
        [⟨"some content", "test", none⟩]⟩,
       ⟨[⟨.key "foo", [], none, none⟩, ⟨.key "test_entity", [], none, some "bad.exe"⟩],
        .key "bar", [("rel", "extracted")], none,
        [("example_int", [⟨.int 6, none⟩, ⟨.int 7, none⟩, ⟨.int 8, none⟩])],
        [⟨"Grandchild binary content", "content", none⟩]⟩] := by
  decide

example :
    (runJob dummySchema
      [ .addChild none "foo" [("rt", "rv")] none,
        .addFeatureValues (some 0) "feat" [none] ]
      none "test_entity") =
      ⟨outputErrorState (undeclaredMsg "feat"), [], []⟩ := by
  decide

example :
    (runJob dummySchema
      [ .addChild none "foo" [("rt", "rv")] none,
        .addFeatureValues (some 0) "example_unspec" [sv "1", sv "2", sv "3", iv 4] ]
      none "test_entity") =
      ⟨outputErrorState (mismatchMsg "example_unspec"), [], []⟩ := by
  decide

example :
    (runJob dummySchema [] none "test_entity") =
      ⟨⟨.completedEmpty, none, none⟩, [], []⟩ := by
  decide

/-- Modelled from the spec: the Monitor's warning and force-exit
thresholds, fractions of the memory ceiling expressed in permille
(defaults 0.8 → 800 and 0.9 → 900). -/
structure MemCfg where
  warnPermille : ℕ := 800
  forcePermille : ℕ := 900
deriving DecidableEq, Repr

/-- Percentage of the ceiling used, formatted to one decimal place. -/
def fmtPctTenths (used maxMem : ℕ) : String :=
  let t := used * 1000 / maxMem
  toString (t / 10) ++ "." ++ toString (t % 10)

/-- The ERROR_OOM message, naming the plugin, the job identifier, the
ceiling, the usage and the percentage (as pinned by the tests). -/
def oomMessage (plugin jobId : String) (maxMem used : ℕ) : String :=
  "Plugin " ++ plugin ++ " failed to complete job '" ++ jobId ++
  "' because it ran out of memory, memory limit is " ++ toString maxMem ++
  "B and memory usage was " ++ toString used ++ "B which is " ++
  fmtPctTenths used maxMem ++ "% memory usage."

/-- The near-OOM warning message fragment (as pinned by the tests). -/
def warnMessage (jobId : String) (used maxMem : ℕ) : String :=
  "'" ++ jobId ++ "' is nearly out of memory it is at " ++
  fmtPctTenths used maxMem ++ "% memory usage"

/-- Outcome of one memory poll. -/
inductive MemAction where
  | oom (killProcessTree : Bool) (st : State)
  | warn (msg : String)
  | ok
deriving DecidableEq

/-- Modelled from the spec and tests: one memory poll.  When the raw
usage counter reaches the force-exit fraction of the ceiling, the
reclaimable ("inactive") memory is subtracted; if the refined usage is
still at or above the force-exit threshold the execution unit's whole
process tree is killed recursively and ERROR_OOM is raised with the
refined usage and percentage, otherwise the poll falls back to the
warning check.  (The tests pin this refinement: a raw reading of 100%
of a 100B ceiling is reported as 90B and 90.0% after subtracting the
10B `inactive_file` figure, and a raw 95% reading produces only the
85.0% warning.) -/
def memPoll (plugin jobId : String) (cfg : MemCfg) (maxMem rawUsage inactive : ℕ) :
    MemAction :=
  if rawUsage * 1000 ≥ cfg.forcePermille * maxMem then
    let used := rawUsage - inactive
    if used * 1000 ≥ cfg.forcePermille * maxMem then
      .oom true ⟨.errorOom, some "Out of Memory", some (oomMessage plugin jobId maxMem used)⟩
    else if used * 1000 ≥ cfg.warnPermille * maxMem then
      .warn (warnMessage jobId used maxMem)
    else .ok
  else if rawUsage * 1000 ≥ cfg.warnPermille * maxMem then
    .warn (warnMessage jobId rawUsage maxMem)
  else .ok

/-- Decimal-digit value of a character, if it is one. -/
def decDigit? (c : Char) : Option ℕ :=
  if 48 ≤ c.toNat ∧ c.toNat ≤ 57 then some (c.toNat - 48) else none

/-- Parse a digit sequence into a number. -/
def parseNatAux : List Char → ℕ → Option ℕ
  | [], acc => some acc
  | c :: cs, acc =>
      match decDigit? c with
      | none => none
      | some d => parseNatAux cs (acc * 10 + d)

/-- Parse a non-empty all-digit character list. -/
def parseNatChars : List Char → Option ℕ
  | [] => none
  | l => parseNatAux l 0

/-- Modelled from the spec: reading the memory-ceiling counter at setup
parses the ceiling file's content as a number; a malformed value (such
as "MAXMEM") fails the read. -/
def parseCeiling (s : String) : Option ℕ := parseNatChars s.data

/-- Split a character stream into newline-separated lines. -/
def splitLinesAux : List Char → List Char → List (List Char)
  | [], cur => [cur.reverse]
  | c :: cs, cur =>
      if c = '\n' then cur.reverse :: splitLinesAux cs []
      else splitLinesAux cs (c :: cur)

/-- Remainder of a line after a given tag, when the line starts with
it. -/
def takeAfterTag (tag line : List Char) : Option (List Char) :=
  if line.take tag.length = tag then some (line.drop tag.length) else none

/-- Find the value of the first line carrying the given tag. -/
def findTagValue (tag : List Char) : List (List Char) → Option ℕ
  | [] => none
  | l :: ls =>
      match takeAfterTag tag l with
      | some rest => parseNatChars rest
      | none => findTagValue tag ls

/-- Modelled from the spec: the usage-breakdown source determines the
reclaimable ("inactive") share of raw usage — the `inactive_file`
figure of the memory summary file (pinned by the OOM tests' 100→90
arithmetic). -/
def parseInactiveFile (s : String) : Option ℕ :=
  findTagValue ("inactive_file ".data) (splitLinesAux s.data [])

/-- Modelled from the spec: the memory-supervision outcome of
`run_once`.  If the ceiling cannot be read at setup, memory tracking is
disabled for the run and the plugin's own result stands; otherwise a
poll observing a force-exit breach kills the process tree (first
component `true`) and replaces the result with ERROR_OOM. -/
def runOnceMem (ceilingFile summaryFile : String) (cfg : MemCfg)
    (plugin jobId : String) (rawUsage : ℕ) (pluginResult : State) : Bool × State :=
  match parseCeiling ceilingFile with
  | none => (false, pluginResult)
  | some maxMem =>
      let inactive := (parseInactiveFile summaryFile).getD 0
      match memPoll plugin jobId cfg maxMem rawUsage inactive with
      | .oom kill st => (kill, st)
      | _ => (false, pluginResult)

/-- Markers recorded on the Coordinator's monitoring channel: a
no-event marker immediately before each fetch, a job marker while a job
is in flight. -/
inductive Marker where
  | job
  | noEvent
deriving DecidableEq, Repr

/-- Modelled from the spec: the Coordinator loop's monitoring-channel
trace as a function of the number of complete fetch→execute→report
cycles it runs before exiting.  Each cycle records the no-event marker
just before its fetch and a job marker while the job is in flight; a
termination signal received during a job only sets the stop flag, which
the loop observes at its next head — after recording the final no-event
marker — and then exits without fetching. -/
def coordTrace : ℕ → List Marker
  | 0 => [.noEvent]
  | n + 1 => .noEvent :: .job :: coordTrace n

/-- Modelled from the spec: the trace of a Coordinator that receives a
termination signal while the `sigAt`-th fetched job (0-based) is in
flight: that job's cycle completes, and the loop exits at the next
head. -/
def coordRun (sigAt : ℕ) : List Marker := coordTrace (sigAt + 1)

/-- The memory summary file contents the OOM tests install (the
`inactive_file` line carries the 10 bytes of reclaimable memory). -/
def memSummaryFixture : String :=
  "anon 1228517376\nfile 19820544\nkernel_stack 704512\npagetables 4546560\npercpu 1152\nsock 69632\nshmem 262144\nfile_mapped 1372160\nfile_dirty 57344\nfile_writeback 0\nswapcached 0\nanon_thp 811597824\nfile_thp 0\nshmem_thp 0\ninactive_anon 1257385984\nactive_anon 49152\ninactive_file 10\nactive_file 7118848\nunevictable 0\nslab_reclaimable 4810728\nslab_unreclaimable 1600464\nslab 6411192\nworkingset_refault_anon 0\nworkingset_refault_file 0\nworkingset_activate_anon 0\nworkingset_activate_file 0\nworkingset_restore_anon 0\nworkingset_restore_file 0\nworkingset_nodereclaim 0\npgfault 2343992\npgmajfault 22\npgrefill 0\npgscan 0\npgsteal 0\npgactivate 1786\npgdeactivate 0\npglazyfree 0\npglazyfreed 0\nthp_fault_alloc 2343\nthp_collapse_alloc 508"

example : parseInactiveFile memSummaryFixture = some 10 := by decide

example : parseCeiling "MAXMEM" = none := by decide

example : parseCeiling "100" = some 100 := by decide

example :
    runOnceMem "100" memSummaryFixture {} "DummySleepPlugin" "1234" 100
      ⟨.completedEmpty, none, none⟩ =
      (true, ⟨.errorOom, some "Out of Memory",
        some "Plugin DummySleepPlugin failed to complete job '1234' because it ran out of memory, memory limit is 100B and memory usage was 90B which is 90.0% memory usage."⟩) := by
  decide

example :
    runOnceMem "100" memSummaryFixture {} "DummySleepPlugin" "1234" 95
      ⟨.completedEmpty, none, none⟩ =
      (false, ⟨.completedEmpty, none, none⟩) := by
  decide

example :
    memPoll "DummySleepPlugin" "1234" {} 100 95 10 =
      .warn (warnMessage "1234" 85 100) := by
  decide

example : warnMessage "1234" 85 100 = "'1234' is nearly out of memory it is at 85.0% memory usage" := by
  decide

example :
    memPoll "DummySleepPlugin" "1234" {} 100 85 10 =
      .warn (warnMessage "1234" 85 100) := by
  decide

theorem foldl_stepOp_err_stable (schema : Schema) :
    ∀ (ops : List Op) (c : Ctx), c.err.isSome → ops.foldl (stepOp schema) c = c := by
  intro ops
  induction ops with
  | nil => intro c _; rfl
  | cons op rest ih =>
    intro c h
    rw [List.foldl_cons, stepOp, if_pos h]
    exact ih c h

/-- C3 (amended): an `addChildWithData` or `addData` call with
zero-length content raises `ValueError` with message "tried to add data
file with 0 bytes"; the failure is surfaced as ERROR_EXCEPTION with
failure name "ValueError" carrying the message, the job never silently
succeeds, and no output is produced. -/
theorem empty_attachment_raises_value_error (schema : Schema) (pre post : List Op)
    (op : Op) (ent : Option ℕ) (rel : Rel) (lbl : String) (lang : Option String)
    (ret : Option State) (rootSha : String)
    (hpre : (foldCtx schema pre).err = none)
    (hop : op = .addChildWithData ent rel "" ∨ op = .addData ent lbl lang "") :
    runJob schema (pre ++ op :: post) ret rootSha = ⟨valueErrorState, [], []⟩ := by
  have happ : applyOp schema (foldCtx schema pre) op =
      { foldCtx schema pre with err := some valueErrorState } := by
    rcases hop with rfl | rfl
    · simp [applyOp]
    · simp [applyOp]
  have h1 : foldCtx schema (pre ++ op :: post) =
      { foldCtx schema pre with err := some valueErrorState } := by
    rw [foldCtx, List.foldl_append, List.foldl_cons]
    rw [show List.foldl (stepOp schema) {} pre = foldCtx schema pre from rfl]
    rw [stepOp, if_neg (by rw [hpre]; simp), happ]
    exact foldl_stepOp_err_stable schema post _ (by simp)
  simp only [runJob, h1]

/-- C3 (counterexample): the claim says the zero-length-content failure
is surfaced as ERROR_OUTPUT, but on the `DPAddEmpty` job the state is
ERROR_EXCEPTION with failure name "ValueError", not ERROR_OUTPUT. -/
theorem c3_counterexample :
    (runJob dummySchema
      [ .addChildWithData none [("rt", "rv")] "",
        .addFeatureValues (some 0) "example_string" [none] ] none "test_entity").state =
      ⟨.errorException, some "ValueError", some "tried to add data file with 0 bytes"⟩ ∧
    (runJob dummySchema
      [ .addChildWithData none [("rt", "rv")] "",
        .addFeatureValues (some 0) "example_string" [none] ] none "test_entity").state.label ≠
      .errorOutput := by
  exact ⟨by decide, by decide⟩

theorem c3_witness :
    runJob dummySchema
      ([] ++ Op.addChildWithData none [("rt", "rv")] "" ::
        [Op.addFeatureValues (some 0) "example_string" [none]]) none "test_entity" =
      ⟨valueErrorState, [], []⟩ :=
  empty_attachment_raises_value_error dummySchema [] [Op.addFeatureValues (some 0) "example_string" [none]]
    (Op.addChildWithData none [("rt", "rv")] "") none [("rt", "rv")] "" none none "test_entity"
    (by decide) (Or.inl rfl)

/-- C5: an `addFeatureValues` call anywhere in the entity tree with an
undeclared feature name, or containing a non-null value whose runtime
kind disagrees with the declaration, fails the whole job with
ERROR_OUTPUT (failure name "Invalid Plugin Output") carrying the
validation message, with no events and no content — nothing is
partially applied. -/
theorem invalid_feature_fails_job (schema : Schema) (pre post : List Op) (ent : Option ℕ)
    (name : String) (vals : List (Option FeatureValue)) (ret : Option State) (rootSha : String)
    (hpre : (foldCtx schema pre).err = none)
    (hbad : findDecl schema name = none ∨
      ∃ f, findDecl schema name = some f ∧
        ∃ fv, some fv ∈ vals ∧ typeMatch f.ftype fv.val = false) :
    ∃ m, runJob schema (pre ++ .addFeatureValues ent name vals :: post) ret rootSha =
        ⟨⟨.errorOutput, some "Invalid Plugin Output", some m⟩, [], []⟩ ∧
      (m = undeclaredMsg name ∨ m = mismatchMsg name) := by
  have key : ∃ m, applyOp schema (foldCtx schema pre) (.addFeatureValues ent name vals) =
      { foldCtx schema pre with err := some (outputErrorState m) } ∧
      (m = undeclaredMsg name ∨ m = mismatchMsg name) := by
    rcases hbad with hnone | ⟨f, hf, fv, hmem, hty⟩
    · refine ⟨undeclaredMsg name, ?_, Or.inl rfl⟩
      simp only [applyOp, hnone]
    · refine ⟨mismatchMsg name, ?_, Or.inr rfl⟩
      have hany : (vals.any (fun o => match o with
          | some fv => !typeMatch f.ftype fv.val
          | none => false)) = true := by
        refine List.any_eq_true.mpr ⟨some fv, hmem, ?_⟩
        simp [hty]
      simp only [applyOp, hf, hany, if_true]
  obtain ⟨m, happ, hm⟩ := key
  refine ⟨m, ?_, hm⟩
  have h1 : foldCtx schema (pre ++ .addFeatureValues ent name vals :: post) =
      { foldCtx schema pre with err := some (outputErrorState m) } := by
    rw [foldCtx, List.foldl_append, List.foldl_cons]
    rw [show List.foldl (stepOp schema) {} pre = foldCtx schema pre from rfl]
    rw [stepOp, if_neg (by rw [hpre]; simp), happ]
    exact foldl_stepOp_err_stable schema post _ (by simp)
  simp only [runJob, h1, outputErrorState]

theorem c5_witness :
    ∃ m, runJob dummySchema
        ([Op.addChild none "foo" [("rt", "rv")] none] ++
          Op.addFeatureValues (some 0) "feat" [none] :: []) none "test_entity" =
        ⟨⟨.errorOutput, some "Invalid Plugin Output", some m⟩, [], []⟩ ∧
      (m = undeclaredMsg "feat" ∨ m = mismatchMsg "feat") :=
  invalid_feature_fails_job dummySchema [Op.addChild none "foo" [("rt", "rv")] none] []
    (some 0) "feat" [none] none "test_entity" (by decide) (Or.inl (by decide))

/-- C10: when the plugin's `execute` returns an explicit terminal error
state after registering children, features and data, the job result
carries only that state — the events list and the content map are
empty, every pending operation being discarded. -/
theorem explicit_error_return_discards_output (schema : Schema) (ops : List Op)
    (s : State) (rootSha : String)
    (hok : (foldCtx schema ops).err = none)
    (herr : s.label = .errorInput ∨ s.label = .errorOutput ∨
      s.label = .errorException ∨ s.label = .errorOom) :
    runJob schema ops (some s) rootSha = ⟨s, [], []⟩ := by
  simp only [runJob, hok]

theorem c10_witness :
    runJob dummySchema
      [ .addChild none "foo" [("rel", "1")] none,
        .addFeatureValues (some 0) "example_unspec" [sv "3", sv "horse", sv "1", sv "2"],
        .addData (some 0) "test" none "some content" ]
      (some ⟨.errorInput, some "Generic Error", none⟩) "test_entity" =
      ⟨⟨.errorInput, some "Generic Error", none⟩, [], []⟩ :=
  explicit_error_return_discards_output dummySchema
    [ .addChild none "foo" [("rel", "1")] none,
      .addFeatureValues (some 0) "example_unspec" [sv "3", sv "horse", sv "1", sv "2"],
      .addData (some 0) "test" none "some content" ]
    ⟨.errorInput, some "Generic Error", none⟩ "test_entity" (by decide) (Or.inl rfl)

/-- C7: whenever a memory poll observes (non-reclaimable) usage at or
above the force-exit fraction of the ceiling, `run_once` kills the
execution unit's whole process tree recursively and produces
ERROR_OOM with failure name "Out of Memory" and a message naming the
plugin, the job identifier, the ceiling, the usage and the percentage
to one decimal place, where the reported usage and percentage are the
raw counter minus the reclaimable (`inactive_file`) figure. -/
theorem oom_breach_kills_tree_and_reports (ceil summary : String) (cfg : MemCfg)
    (plugin jobId : String) (raw maxMem inactive : ℕ) (pluginResult : State)
    (hceil : parseCeiling ceil = some maxMem)
    (hinact : parseInactiveFile summary = some inactive)
    (hle : inactive ≤ raw)
    (hforce : (raw - inactive) * 1000 ≥ cfg.forcePermille * maxMem) :
    runOnceMem ceil summary cfg plugin jobId raw pluginResult =
      (true, ⟨.errorOom, some "Out of Memory",
        some (oomMessage plugin jobId maxMem (raw - inactive))⟩) := by
  have hraw : raw * 1000 ≥ cfg.forcePermille * maxMem :=
    le_trans hforce (Nat.mul_le_mul_right _ (Nat.sub_le _ _))
  simp only [runOnceMem, hceil, hinact, Option.getD_some, memPoll, if_pos hraw, if_pos hforce]

theorem c7_witness :
    parseCeiling "100" = some 100 ∧
    parseInactiveFile memSummaryFixture = some 10 ∧
    10 ≤ 100 ∧
    (100 - 10) * 1000 ≥ ({} : MemCfg).forcePermille * 100 ∧
    runOnceMem "100" memSummaryFixture {} "DummySleepPlugin" "1234" 100
      ⟨.completedEmpty, none, none⟩ =
      (true, ⟨.errorOom, some "Out of Memory",
        some "Plugin DummySleepPlugin failed to complete job '1234' because it ran out of memory, memory limit is 100B and memory usage was 90B which is 90.0% memory usage."⟩) :=
  ⟨by decide, by decide, by decide, by decide,
    (oom_breach_kills_tree_and_reports "100" memSummaryFixture {} "DummySleepPlugin" "1234"
      100 100 10 ⟨.completedEmpty, none, none⟩ (by decide) (by decide) (by decide)
      (by decide)).trans (by decide)⟩

/-- C8: when reading the memory ceiling at setup fails (a non-numeric
value such as "MAXMEM"), memory tracking is disabled for the run and
the plugin's own result stands — the job proceeds as if limits were
unset and is never replaced by an OOM or setup error. -/
theorem mem_setup_failure_disables_tracking (ceil summary : String) (cfg : MemCfg)
    (plugin jobId : String) (raw : ℕ) (st : State)
    (hceil : parseCeiling ceil = none) :
    runOnceMem ceil summary cfg plugin jobId raw st = (false, st) := by
  simp only [runOnceMem, hceil]

theorem c8_witness :
    parseCeiling "MAXMEM" = none ∧
    (runJob dummySchema [] none "1234").state = ⟨.completedEmpty, none, none⟩ ∧
    runOnceMem "MAXMEM" memSummaryFixture {} "DummySleepPlugin" "1234" 100
      ((runJob dummySchema [] none "1234").state) = (false, ⟨.completedEmpty, none, none⟩) :=
  ⟨by decide, by decide,
    (mem_setup_failure_disables_tracking "MAXMEM" memSummaryFixture {} "DummySleepPlugin"
      "1234" 100 ((runJob dummySchema [] none "1234").state) (by decide)).trans (by decide)⟩

theorem coordTrace_getLast (n : ℕ) : (coordTrace n).getLast? = some .noEvent := by
  induction n with
  | zero => rfl
  | succ k ih =>
    rcases hk : coordTrace k with _ | ⟨h, t⟩
    · rw [hk] at ih
      simp at ih
    · rw [coordTrace, hk]
      rw [hk] at ih
      rw [List.getLast?_cons_cons, List.getLast?_cons_cons]
      exact ih

theorem coordTrace_count_job (n : ℕ) : (coordTrace n).count .job = n := by
  induction n with
  | zero => rfl
  | succ k ih =>
    rw [coordTrace, List.count_cons, List.count_cons, ih]
    rfl

/-- C9: a Coordinator that receives a termination signal while a job is
in flight completes that job's fetch→execute→report cycle before
exiting: its monitoring-channel trace records all `sigAt + 1` job
markers (including the in-flight one), and the last recorded marker is
the no-event marker placed immediately before a fetch — never a
mid-job marker. -/
theorem coordinator_completes_job_before_exit (sigAt : ℕ) :
    (coordRun sigAt).getLast? = some .noEvent ∧
    (coordRun sigAt).count .job = sigAt + 1 :=
  ⟨coordTrace_getLast _, coordTrace_count_job _⟩

/-- C1 (counterexample): on the `DPAddChildResults3` job — whose first
and third children share parent, content identifier and relationship —
the assembled events list holds a single merged event for that content
identifier, carrying the features of both children, and three events
in total; the duplicate children do not appear as separate events. -/
theorem c1_counterexample :
    (runJob dummySchema dp3Ops none "test_entity").events.length = 3 ∧
    ((runJob dummySchema dp3Ops none "test_entity").events.filter
      (fun e => e.sha = .content "some content")).length = 1 ∧
    ((runJob dummySchema dp3Ops none "test_entity").events.filter
      (fun e => e.sha = .content "some content")).map Event.features =
      [[("example_unspec",
         [⟨.str "1", none⟩, ⟨.str "2", none⟩, ⟨.str "3", none⟩,
          ⟨.str "horse", none⟩, ⟨.str "some new value", none⟩])]] :=
  ⟨by decide, by decide, by decide⟩

/-- C2 (counterexample): on the `DPAddGrandChildResults2` job the
assembled events follow the order the add-child operations were issued
— `child, child2, foo, content "2", content "3"` — and the event for
`child` (which has children at positions 2 and 3) is immediately
followed by `child2`, whose immediate parent is the root: the list is
not in pre-order. -/
theorem c2_counterexample :
    (runJob dummySchema dpg2Ops none "test_entity").events.map Event.sha =
      [.key "child", .key "child2", .key "foo", .content "2", .content "3"] ∧
    (runJob dummySchema dpg2Ops none "test_entity").events.map
        (fun e => e.parent.head?.map ChainEnt.sha) =
      [some (.key "test_entity"), some (.key "test_entity"), some (.key "child"),
       some (.key "child"), some (.key "child2")] :=
  ⟨by decide, by decide⟩

/-- C4: the value list emitted by `addFeatureValues` under a declared
feature name is exposed on the assembled event as exactly the
deduplicated, sorted collection of its non-None values, independent of
emission order (any permutation yields the same event); None entries
are dropped rather than treated as errors, an all-None list yields an
empty collection, and the job completes with state COMPLETED. -/
theorem feature_values_dedup_sorted (schema : Schema) (fdecl : Feature)
    (name key : String) (rel : Rel) (rootSha : String)
    (vals vals' : List (Option FeatureValue))
    (hdecl : findDecl schema name = some fdecl)
    (hvalid : ∀ fv : FeatureValue, some fv ∈ vals → typeMatch fdecl.ftype fv.val = true)
    (hperm : vals'.Perm vals) :
    ∃ l, runJob schema
        [.addChild none key rel none, .addFeatureValues (some 0) name vals'] none rootSha =
        ⟨⟨.completed, none, none⟩,
         [⟨[⟨.key rootSha, [], none, none⟩], .key key, rel, none, [(name, l)], []⟩], []⟩ ∧
      List.Sorted fvLe l ∧ l.Nodup ∧ (∀ v, v ∈ l ↔ some v ∈ vals) := by
  have hany : (vals'.any (fun o => match o with
      | some fv => !typeMatch fdecl.ftype fv.val
      | none => false)) = false := by
    rw [List.any_eq_false]
    intro o ho
    cases o with
    | none => simp
    | some fv =>
      have : some fv ∈ vals := hperm.mem_iff.mp ho
      simp [hvalid fv this]
  have hctx : foldCtx schema
      [.addChild none key rel none, .addFeatureValues (some 0) name vals'] =
      ⟨[], [], [⟨0, none, .key key, rel, none, [(name, vals'.filterMap id)], []⟩], [], none⟩ := by
    show applyOp schema (stepOp schema {} (.addChild none key rel none))
      (.addFeatureValues (some 0) name vals') = _
    rw [show stepOp schema {} (.addChild none key rel none) =
      (⟨[], [], [⟨0, none, .key key, rel, none, [], []⟩], [], none⟩ : Ctx) from rfl]
    simp only [applyOp, hdecl, hany]
    rfl
  refine ⟨sortedDedup (vals'.filterMap id), ?_, ?_, ?_, ?_⟩
  · simp only [runJob, hctx]
    simp [assemble, groupFeats, valuesFor, mergeEnts, List.foldl_cons, List.foldl_nil,
      insertEnt, toEvent, chainOf, chainAux, filenameOfLog, sortedDedup,
      List.filter_cons, List.dedup_cons_of_not_mem]
  · exact List.sorted_insertionSort fvLe _
  · exact ((List.perm_insertionSort fvLe _).nodup_iff).mpr (List.nodup_dedup _)
  · intro v
    rw [sortedDedup, List.mem_insertionSort, List.mem_dedup, ← hperm.mem_iff]
    simp [List.mem_filterMap]

theorem c4_witness :
    ∃ l, runJob dummySchema
        [.addChild none "foo" [("rt", "rv")] none,
         .addFeatureValues (some 0) "example_unspec" [sv "1", sv "2", none]] none "test_entity" =
        ⟨⟨.completed, none, none⟩,
         [⟨[⟨.key "test_entity", [], none, none⟩], .key "foo", [("rt", "rv")], none,
           [("example_unspec", l)], []⟩], []⟩ ∧
      List.Sorted fvLe l ∧ l.Nodup ∧ (∀ v, v ∈ l ↔ some v ∈ [sv "1", sv "2", none]) :=
  feature_values_dedup_sorted dummySchema ⟨"example_unspec", .unspec⟩ "example_unspec" "foo"
    [("rt", "rv")] "test_entity" [sv "1", sv "2", none] [sv "1", sv "2", none]
    (by decide)
    (by
      intro fv h
      simp only [sv, List.mem_cons, List.not_mem_nil, or_false, Option.some.injEq,
        reduceCtorEq] at h
      rcases h with rfl | rfl <;> decide)
    (List.Perm.refl _)

theorem olLe_refl (a : Option String) : olLe a a := by
  cases a with
  | none => trivial
  | some s => exact strLe_refl s

theorem fvLe_refl (a : FeatureValue) : fvLe a a := ⟨vLe_refl _, fun _ => olLe_refl _⟩

/-- Extract the string carried by a string-kind feature value. -/
def strOf (fv : FeatureValue) : Option String :=
  match fv.val with
  | .str s => some s
  | _ => none

/-- C6: when an entity is given several `filename` feature values —
across any number of `addFeatureValues` calls and in any order — the
`filename` attribute its descendants' parent-chain entry exposes is the
lexicographically smallest of all supplied values. -/
theorem filename_min_on_parent_chain (key key2 rootSha : String) (rel rel2 : Rel)
    (vals1 vals2 : List (Option FeatureValue))
    (hshape : ∀ fv : FeatureValue, some fv ∈ vals1 ++ vals2 → ∃ s, fv.val = .str s)
    (hne : ∃ fv, some fv ∈ vals1 ++ vals2) :
    ∃ m,
      (runJob dummySchema
        [.addChild none key rel none,
         .addFeatureValues (some 0) "filename" vals1,
         .addFeatureValues (some 0) "filename" vals2,
         .addChild (some 0) key2 rel2 none] none rootSha).events.map Event.parent =
        [[⟨.key rootSha, [], none, none⟩],
         [⟨.key key, rel, none, some m⟩, ⟨.key rootSha, [], none, none⟩]] ∧
      m ∈ ((vals1 ++ vals2).filterMap id).filterMap strOf ∧
      ∀ t ∈ ((vals1 ++ vals2).filterMap id).filterMap strOf, strLe m t := by
  have hdecl : findDecl dummySchema "filename" = some ⟨"filename", .string⟩ := by decide
  have hany : ∀ vals : List (Option FeatureValue),
      (∀ fv : FeatureValue, some fv ∈ vals → ∃ s, fv.val = .str s) →
      (vals.any (fun o => match o with
        | some fv => !typeMatch FeatureType.string fv.val
        | none => false)) = false := by
    intro vals h
    rw [List.any_eq_false]
    intro o ho
    cases o with
    | none => simp
    | some fv =>
      obtain ⟨s, hs⟩ := h fv ho
      simp [hs, typeMatch]
  have hany1 := hany vals1 (fun fv h => hshape fv (List.mem_append_left _ h))
  have hany2 := hany vals2 (fun fv h => hshape fv (List.mem_append_right _ h))
  have hc2 : stepOp dummySchema (⟨[], [], [⟨0, none, .key key, rel, none, [], []⟩], [], none⟩ : Ctx)
      (.addFeatureValues (some 0) "filename" vals1) =
      ⟨[], [], [⟨0, none, .key key, rel, none, [("filename", vals1.filterMap id)], []⟩], [], none⟩ := by
    rw [stepOp, if_neg (by simp)]
    simp only [applyOp, hdecl, hany1]
    rfl
  have hc3 : stepOp dummySchema
      (⟨[], [], [⟨0, none, .key key, rel, none, [("filename", vals1.filterMap id)], []⟩], [], none⟩ : Ctx)
      (.addFeatureValues (some 0) "filename" vals2) =
      ⟨[], [], [⟨0, none, .key key, rel, none,
        [("filename", vals1.filterMap id), ("filename", vals2.filterMap id)], []⟩], [], none⟩ := by
    rw [stepOp, if_neg (by simp)]
    simp only [applyOp, hdecl, hany2]
    rfl
  have hctx : foldCtx dummySchema
      [.addChild none key rel none,
       .addFeatureValues (some 0) "filename" vals1,
       .addFeatureValues (some 0) "filename" vals2,
       .addChild (some 0) key2 rel2 none] =
      ⟨[], [],
       [⟨0, none, .key key, rel, none,
         [("filename", vals1.filterMap id), ("filename", vals2.filterMap id)], []⟩,
        ⟨1, some 0, .key key2, rel2, none, [], []⟩], [], none⟩ := by
    show stepOp dummySchema (stepOp dummySchema (stepOp dummySchema
      (stepOp dummySchema {} (.addChild none key rel none))
      (.addFeatureValues (some 0) "filename" vals1))
      (.addFeatureValues (some 0) "filename" vals2))
      (.addChild (some 0) key2 rel2 none) = _
    rw [show stepOp dummySchema {} (.addChild none key rel none) =
      (⟨[], [], [⟨0, none, .key key, rel, none, [], []⟩], [], none⟩ : Ctx) from rfl]
    rw [hc2, hc3]
    rfl
  obtain ⟨fv0, hfv0⟩ := hne
  have happf : (vals1 ++ vals2).filterMap id =
      vals1.filterMap id ++ vals2.filterMap id := List.filterMap_append vals1 vals2 id
  have hfv0' : fv0 ∈ vals1.filterMap id ++ vals2.filterMap id := by
    rw [← happf]
    exact List.mem_filterMap.mpr ⟨some fv0, hfv0, rfl⟩
  have hmem0 : fv0 ∈ sortedDedup (vals1.filterMap id ++ vals2.filterMap id) := by
    rw [sortedDedup, List.mem_insertionSort, List.mem_dedup]
    exact hfv0'
  obtain ⟨m0, rest, hsd⟩ :
      ∃ m0 rest, sortedDedup (vals1.filterMap id ++ vals2.filterMap id) = m0 :: rest := by
    cases h : sortedDedup (vals1.filterMap id ++ vals2.filterMap id) with
    | nil => rw [h] at hmem0; simp at hmem0
    | cons a l => exact ⟨a, l, rfl⟩
  have hsdmem : ∀ b, b ∈ m0 :: rest ↔ b ∈ vals1.filterMap id ++ vals2.filterMap id := by
    intro b
    rw [← hsd, sortedDedup, List.mem_insertionSort, List.mem_dedup]
  have hm0mem : m0 ∈ vals1.filterMap id ++ vals2.filterMap id :=
    (hsdmem m0).mp (List.mem_cons_self _ _)
  have hm0memv : some m0 ∈ vals1 ++ vals2 := by
    have := hm0mem
    rw [← happf] at this
    obtain ⟨a, ha, hid⟩ := List.mem_filterMap.mp this
    simpa [show a = some m0 from hid] using ha
  obtain ⟨ms, hms⟩ := hshape m0 hm0memv
  have hsorted : List.Sorted fvLe (m0 :: rest) := by
    rw [← hsd, sortedDedup]
    exact List.sorted_insertionSort fvLe _
  have hminfv : ∀ b ∈ m0 :: rest, fvLe m0 b := by
    intro b hb
    rcases List.mem_cons.mp hb with rfl | hb'
    · exact fvLe_refl _
    · exact (List.sorted_cons.mp hsorted).1 b hb'
  have hvf : valuesFor [("filename", vals1.filterMap id), ("filename", vals2.filterMap id)]
      "filename" = vals1.filterMap id ++ vals2.filterMap id := by
    simp [valuesFor]
  have hfn : filenameOfLog [("filename", vals1.filterMap id), ("filename", vals2.filterMap id)] =
      some ms := by
    simp only [filenameOfLog, hvf, hsd, hms]
  refine ⟨ms, ?_, ?_, ?_⟩
  · simp only [runJob, hctx]
    have hns : ¬ sameKey ⟨0, none, .key key, rel, none,
        [("filename", vals1.filterMap id), ("filename", vals2.filterMap id)], []⟩
        ⟨1, some 0, .key key2, rel2, none, [], []⟩ := by
      simp [sameKey, keyOf]
    simp [assemble, mergeEnts, insertEnt, hns, toEvent, chainOf, chainAux, hfn,
      show filenameOfLog [] = none from rfl]
  · refine List.mem_filterMap.mpr ⟨m0, ?_, by simp [strOf, hms]⟩
    rw [happf]
    exact hm0mem
  · intro t ht
    obtain ⟨fvt, hfvtmem, hfvt⟩ := List.mem_filterMap.mp ht
    have hfvt' : fvt ∈ m0 :: rest := by
      rw [hsdmem]
      rw [happf] at hfvtmem
      exact hfvtmem
    have hle := (hminfv fvt hfvt').1
    have hts : fvt.val = .str t := by
      rcases hv : fvt.val with s | n | b | d
      · simp only [strOf, hv, Option.some.injEq] at hfvt
        rw [hfvt]
      all_goals simp [strOf, hv] at hfvt
    rw [hms, hts] at hle
    exact hle

theorem c6_witness :
    ∃ m, (runJob dummySchema
        [.addChild none "cid" [("reltype", "dummy")] none,
         .addFeatureValues (some 0) "filename" [sv "alpha.3"],
         .addFeatureValues (some 0) "filename" [sv "alpha.1"],
         .addChild (some 0) "cid2" [("reltype", "dummy2")] none] none "test_entity").events.map
        Event.parent =
        [[⟨.key "test_entity", [], none, none⟩],
         [⟨.key "cid", [("reltype", "dummy")], none, some m⟩,
          ⟨.key "test_entity", [], none, none⟩]] ∧
      m ∈ (([sv "alpha.3"] ++ [sv "alpha.1"]).filterMap id).filterMap strOf ∧
      ∀ t ∈ (([sv "alpha.3"] ++ [sv "alpha.1"]).filterMap id).filterMap strOf, strLe m t :=
  filename_min_on_parent_chain "cid" "cid2" "test_entity" [("reltype", "dummy")]
    [("reltype", "dummy2")] [sv "alpha.3"] [sv "alpha.1"]
    (by
      intro fv h
      simp only [sv, List.cons_append, List.nil_append, List.mem_cons, List.not_mem_nil,
        or_false, Option.some.injEq] at h
      rcases h with rfl | rfl
      · exact ⟨"alpha.3", rfl⟩
      · exact ⟨"alpha.1", rfl⟩)
    ⟨⟨.str "alpha.3", none⟩, by simp [sv]⟩

theorem keyOf_update (a : EntRec) (f : List (String × List FeatureValue)) (d : List DataAtt) :
    keyOf { a with featLog := f, dataLog := d } = keyOf a := rfl

theorem keys_insertEnt (acc : List EntRec) (e : EntRec) :
    (insertEnt acc e).map keyOf =
      if keyOf e ∈ acc.map keyOf then acc.map keyOf else acc.map keyOf ++ [keyOf e] := by
  induction acc with
  | nil => simp [insertEnt]
  | cons a rest ih =>
    rw [insertEnt]
    by_cases h : sameKey a e
    · rw [if_pos h]
      rw [sameKey] at h
      simp [keyOf_update, h]
    · rw [if_neg h]
      rw [sameKey] at h
      simp only [List.map_cons, ih, List.mem_cons]
      by_cases hm : keyOf e ∈ rest.map keyOf
      · rw [if_pos hm, if_pos (Or.inr hm)]
      · rw [if_neg hm, if_neg (by
          rintro (hh | hh)
          · exact h hh.symm
          · exact hm hh)]
        simp

theorem idxs_insertEnt (acc : List EntRec) (e : EntRec) :
    (insertEnt acc e).map EntRec.idx =
      if keyOf e ∈ acc.map keyOf then acc.map EntRec.idx
      else acc.map EntRec.idx ++ [e.idx] := by
  induction acc with
  | nil => simp [insertEnt]
  | cons a rest ih =>
    rw [insertEnt]
    by_cases h : sameKey a e
    · rw [if_pos h]
      rw [sameKey] at h
      simp [h]
    · rw [if_neg h]
      rw [sameKey] at h
      simp only [List.map_cons, ih, List.mem_cons]
      by_cases hm : keyOf e ∈ rest.map keyOf
      · rw [if_pos hm, if_pos (Or.inr hm)]
      · rw [if_neg hm, if_neg (by
          rintro (hh | hh)
          · exact h hh.symm
          · exact hm hh)]
        simp

theorem keys_nodup_insertEnt {acc : List EntRec} (e : EntRec)
    (h : (acc.map keyOf).Nodup) : ((insertEnt acc e).map keyOf).Nodup := by
  rw [keys_insertEnt]
  by_cases hm : keyOf e ∈ acc.map keyOf
  · rwa [if_pos hm]
  · rw [if_neg hm]
    simp [List.nodup_append, h, hm]

theorem mergeEnts_keys_nodup (l : List EntRec) : ((mergeEnts l).map keyOf).Nodup := by
  suffices h : ∀ (l : List EntRec) (acc : List EntRec), (acc.map keyOf).Nodup →
      ((l.foldl insertEnt acc).map keyOf).Nodup from h l [] (by simp)
  intro l
  induction l with
  | nil => intro acc h; exact h
  | cons e rest ih =>
    intro acc h
    exact ih (insertEnt acc e) (keys_nodup_insertEnt e h)

theorem mergeEnts_pairwise_not_sameKey (l : List EntRec) :
    (mergeEnts l).Pairwise (fun a b => ¬ sameKey a b) := by
  have h := mergeEnts_keys_nodup l
  rw [List.Nodup, List.pairwise_map] at h
  exact h

theorem mem_insertEnt_src {acc : List EntRec} {e r : EntRec} (h : r ∈ insertEnt acc e) :
    (∃ a ∈ acc, keyOf r = keyOf a ∧ r.idx = a.idx ∧
      (∀ p ∈ a.featLog, p ∈ r.featLog) ∧ (∀ p ∈ a.dataLog, p ∈ r.dataLog)) ∨ r = e := by
  induction acc with
  | nil =>
    rw [insertEnt] at h
    rcases List.mem_singleton.mp h with rfl
    exact Or.inr rfl
  | cons a rest ih =>
    rw [insertEnt] at h
    by_cases hk : sameKey a e
    · rw [if_pos hk] at h
      rcases List.mem_cons.mp h with rfl | hmem
      · exact Or.inl ⟨a, List.mem_cons_self _ _, rfl, rfl,
          fun p hp => List.mem_append_left _ hp, fun p hp => List.mem_append_left _ hp⟩
      · exact Or.inl ⟨r, List.mem_cons_of_mem _ hmem, rfl, rfl, fun _ hp => hp, fun _ hp => hp⟩
    · rw [if_neg hk] at h
      rcases List.mem_cons.mp h with rfl | hmem
      · exact Or.inl ⟨r, List.mem_cons_self _ _, rfl, rfl, fun _ hp => hp, fun _ hp => hp⟩
      · rcases ih hmem with ⟨a', ha', hrest⟩ | hre
        · exact Or.inl ⟨a', List.mem_cons_of_mem _ ha', hrest⟩
        · exact Or.inr hre

theorem foldl_insertEnt_src :
    ∀ (l acc : List EntRec) (r : EntRec), r ∈ l.foldl insertEnt acc →
      (∃ a ∈ acc, keyOf r = keyOf a ∧ r.idx = a.idx) ∨
      (∃ e ∈ l, keyOf r = keyOf e ∧ r.idx = e.idx) := by
  intro l
  induction l with
  | nil => intro acc r h; exact Or.inl ⟨r, h, rfl, rfl⟩
  | cons e rest ih =>
    intro acc r h
    rcases ih (insertEnt acc e) r h with ⟨a, ha, hk, hi⟩ | ⟨x, hx, hk, hi⟩
    · rcases mem_insertEnt_src ha with ⟨a', ha', hk', hi', _, _⟩ | rfl
      · exact Or.inl ⟨a', ha', hk.trans hk', hi.trans hi'⟩
      · exact Or.inr ⟨a, List.mem_cons_self _ _, hk, hi⟩
    · exact Or.inr ⟨x, List.mem_cons_of_mem _ hx, hk, hi⟩

theorem mergeEnts_src {l : List EntRec} {r : EntRec} (h : r ∈ mergeEnts l) :
    ∃ e ∈ l, keyOf r = keyOf e ∧ r.idx = e.idx := by
  rcases foldl_insertEnt_src l [] r h with ⟨a, ha, _⟩ | he
  · exact absurd ha (List.not_mem_nil _)
  · exact he

theorem insertEnt_preserve {acc : List EntRec} (e : EntRec)
    {k : Option ℕ × EntityId × Rel × Option String}
    {fl : List (String × List FeatureValue)} {dl : List DataAtt}
    (h : ∃ r ∈ acc, keyOf r = k ∧ (∀ p ∈ fl, p ∈ r.featLog) ∧ (∀ p ∈ dl, p ∈ r.dataLog)) :
    ∃ r ∈ insertEnt acc e, keyOf r = k ∧
      (∀ p ∈ fl, p ∈ r.featLog) ∧ (∀ p ∈ dl, p ∈ r.dataLog) := by
  induction acc with
  | nil =>
    obtain ⟨r, hr, _⟩ := h
    exact absurd hr (List.not_mem_nil _)
  | cons a rest ih =>
    obtain ⟨r, hr, hk, hf, hd⟩ := h
    rw [insertEnt]
    by_cases hke : sameKey a e
    · rw [if_pos hke]
      rcases List.mem_cons.mp hr with rfl | hmem
      · exact ⟨_, List.mem_cons_self _ _, hk, fun p hp => List.mem_append_left _ (hf p hp),
          fun p hp => List.mem_append_left _ (hd p hp)⟩
      · exact ⟨r, List.mem_cons_of_mem _ hmem, hk, hf, hd⟩
    · rw [if_neg hke]
      rcases List.mem_cons.mp hr with rfl | hmem
      · exact ⟨r, List.mem_cons_self _ _, hk, hf, hd⟩
      · obtain ⟨r', hr', hk', hf', hd'⟩ := ih ⟨r, hmem, hk, hf, hd⟩
        exact ⟨r', List.mem_cons_of_mem _ hr', hk', hf', hd'⟩

theorem insertEnt_adds (acc : List EntRec) (e : EntRec) :
    ∃ r ∈ insertEnt acc e, keyOf r = keyOf e ∧
      (∀ p ∈ e.featLog, p ∈ r.featLog) ∧ (∀ p ∈ e.dataLog, p ∈ r.dataLog) := by
  induction acc with
  | nil => exact ⟨e, List.mem_singleton.mpr rfl, rfl, fun _ hp => hp, fun _ hp => hp⟩
  | cons a rest ih =>
    rw [insertEnt]
    by_cases hke : sameKey a e
    · rw [if_pos hke]
      rw [sameKey] at hke
      exact ⟨_, List.mem_cons_self _ _, hke, fun p hp => List.mem_append_right _ hp,
        fun p hp => List.mem_append_right _ hp⟩
    · rw [if_neg hke]
      obtain ⟨r, hr, hk, hf, hd⟩ := ih
      exact ⟨r, List.mem_cons_of_mem _ hr, hk, hf, hd⟩

theorem mergeEnts_covers :
    ∀ (l : List EntRec) (e : EntRec), e ∈ l →
      ∃ r ∈ mergeEnts l, keyOf r = keyOf e ∧
        (∀ p ∈ e.featLog, p ∈ r.featLog) ∧ (∀ p ∈ e.dataLog, p ∈ r.dataLog) := by
  suffices h : ∀ (l acc : List EntRec) (e : EntRec),
      ((∃ r ∈ acc, keyOf r = keyOf e ∧
        (∀ p ∈ e.featLog, p ∈ r.featLog) ∧ (∀ p ∈ e.dataLog, p ∈ r.dataLog)) ∨ e ∈ l) →
      ∃ r ∈ l.foldl insertEnt acc, keyOf r = keyOf e ∧
        (∀ p ∈ e.featLog, p ∈ r.featLog) ∧ (∀ p ∈ e.dataLog, p ∈ r.dataLog) by
    intro l e he
    exact h l [] e (Or.inr he)
  intro l
  induction l with
  | nil =>
    intro acc e h
    rcases h with h | h
    · exact h
    · exact absurd h (List.not_mem_nil _)
  | cons x rest ih =>
    intro acc e h
    rcases h with h | h
    · exact ih (insertEnt acc x) e (Or.inl (insertEnt_preserve x h))
    · rcases List.mem_cons.mp h with rfl | hmem
      · exact ih (insertEnt acc e) e (Or.inl (insertEnt_adds acc e))
      · exact ih (insertEnt acc x) e (Or.inr hmem)

theorem groupFeats_exposes {log : List (String × List FeatureValue)}
    {p : String × List FeatureValue} (hp : p ∈ log) :
    ∃ l, (p.1, l) ∈ groupFeats log ∧ ∀ v ∈ p.2, v ∈ l := by
  refine ⟨sortedDedup (valuesFor log p.1), ?_, ?_⟩
  · refine List.mem_map.mpr ⟨p.1, ?_, rfl⟩
    exact List.mem_dedup.mpr (List.mem_map.mpr ⟨p, hp, rfl⟩)
  · intro v hv
    rw [sortedDedup, List.mem_insertionSort, List.mem_dedup, valuesFor]
    refine List.mem_flatMap.mpr ⟨p, ?_, hv⟩
    exact List.mem_filter.mpr ⟨hp, by simp⟩

theorem merged_event_mem_runJob {schema : Schema} {ops : List Op} (rootSha : String)
    (hok : (foldCtx schema ops).err = none) {r : EntRec}
    (hr : r ∈ mergeEnts (foldCtx schema ops).ents) :
    toEvent rootSha (filenameOfLog (foldCtx schema ops).rootFeat) (foldCtx schema ops).ents r ∈
      (runJob schema ops none rootSha).events := by
  have hmapne : (mergeEnts (foldCtx schema ops).ents).map
      (toEvent rootSha (filenameOfLog (foldCtx schema ops).rootFeat) (foldCtx schema ops).ents) ≠
      [] := by
    intro hmap
    rw [List.map_eq_nil_iff] at hmap
    rw [hmap] at hr
    exact List.not_mem_nil _ hr
  simp only [runJob, hok, assemble]
  split_ifs with h1 h2 h3
  · exact absurd (by simpa using h2) hmapne
  · exact List.mem_append_right _ (List.mem_map_of_mem _ hr)
  · exact absurd h3 (by simp)
  · exact List.mem_append_right _ (List.mem_map_of_mem _ hr)

/-- C1 (amended): two children created under the same parent with the
same content identifier, the same relationship and the same parent-sha
override are not kept as separate events — they are merged into the one
assembled event of that key, which carries the feature entries and data
attachments of both; the assembled entities of a job always have
pairwise-distinct merge keys. -/
theorem duplicate_children_merge_into_one_event (schema : Schema) (ops : List Op)
    (rootSha : String) (hok : (foldCtx schema ops).err = none) :
    (mergeEnts (foldCtx schema ops).ents).Pairwise (fun a b => ¬ sameKey a b) ∧
    ∀ e ∈ (foldCtx schema ops).ents,
      ∃ r ∈ mergeEnts (foldCtx schema ops).ents, sameKey r e ∧
        (∀ p ∈ e.featLog, p ∈ r.featLog) ∧ (∀ p ∈ e.dataLog, p ∈ r.dataLog) ∧
        ∃ ev ∈ (runJob schema ops none rootSha).events, ev.sha = e.sha ∧
          ∀ p ∈ e.featLog, ∃ l, (p.1, l) ∈ ev.features ∧ ∀ v ∈ p.2, v ∈ l := by
  refine ⟨mergeEnts_pairwise_not_sameKey _, ?_⟩
  intro e he
  obtain ⟨r, hr, hk, hf, hd⟩ := mergeEnts_covers _ e he
  have hsha : r.sha = e.sha := by
    simp only [keyOf, Prod.mk.injEq] at hk
    exact hk.2.1
  refine ⟨r, hr, hk, hf, hd,
    toEvent rootSha (filenameOfLog (foldCtx schema ops).rootFeat) (foldCtx schema ops).ents r,
    merged_event_mem_runJob rootSha hok hr, hsha, ?_⟩
  intro p hp
  exact groupFeats_exposes (hf p hp)

theorem c1_witness :
    ∃ r ∈ mergeEnts (foldCtx dummySchema dp3Ops).ents,
      sameKey r ⟨2, none, .content "some content", [("rel", "1")], none,
        [("example_unspec", [⟨.str "some new value", none⟩])],
        [⟨"some content", "content", none⟩, ⟨"some more content", "test", some "value"⟩]⟩ ∧
      (∀ p ∈ [("example_unspec", [(⟨.str "some new value", none⟩ : FeatureValue)])],
        p ∈ r.featLog) ∧
      (∀ d ∈ [(⟨"some content", "content", none⟩ : DataAtt),
              ⟨"some more content", "test", some "value"⟩], d ∈ r.dataLog) ∧
      ∃ ev ∈ (runJob dummySchema dp3Ops none "test_entity").events,
        ev.sha = .content "some content" ∧
        ∀ p ∈ [("example_unspec", [(⟨.str "some new value", none⟩ : FeatureValue)])],
          ∃ l, (p.1, l) ∈ ev.features ∧ ∀ v ∈ p.2, v ∈ l :=
  (duplicate_children_merge_into_one_event dummySchema dp3Ops "test_entity" (by decide)).2
    ⟨2, none, .content "some content", [("rel", "1")], none,
      [("example_unspec", [⟨.str "some new value", none⟩])],
      [⟨"some content", "content", none⟩, ⟨"some more content", "test", some "value"⟩]⟩
    (by decide)

/-- Well-formedness of the entity store: positions equal creation
indices and every parent reference points to an earlier entity. -/
def WfEnts (l : List EntRec) : Prop :=
  ∀ (k : ℕ) (hk : k < l.length), (l.get ⟨k, hk⟩).idx = k ∧
    ∀ j, (l.get ⟨k, hk⟩).parent = some j → j < k

theorem wfEnts_nil : WfEnts [] := by
  intro k hk
  simp at hk

theorem wfEnts_append_new {l : List EntRec} (h : WfEnts l)
    (par : Option ℕ) (sha : EntityId) (rel : Rel) (ov : Option String)
    (fl : List (String × List FeatureValue)) (dl : List DataAtt)
    (hpar : ∀ j, par = some j → j < l.length) :
    WfEnts (l ++ [⟨l.length, par, sha, rel, ov, fl, dl⟩]) := by
  intro k hk
  by_cases hlt : k < l.length
  · rw [List.get_append _ hlt]
    exact h k hlt
  · have hke : k = l.length := by
      rw [List.length_append, List.length_singleton] at hk
      omega
    subst hke
    have hg : (l ++ [(⟨l.length, par, sha, rel, ov, fl, dl⟩ : EntRec)]).get
        ⟨l.length, hk⟩ = ⟨l.length, par, sha, rel, ov, fl, dl⟩ := by
      simp [List.get_eq_getElem, List.getElem_append_right (le_refl l.length)]
    rw [hg]
    exact ⟨rfl, hpar⟩

theorem wfEnts_map {l : List EntRec} (f : EntRec → EntRec)
    (hidx : ∀ r, (f r).idx = r.idx) (hpar : ∀ r, (f r).parent = r.parent)
    (h : WfEnts l) : WfEnts (l.map f) := by
  intro k hk
  have hk' : k < l.length := by
    rw [List.length_map] at hk
    exact hk
  have hg : (l.map f).get ⟨k, hk⟩ = f (l.get ⟨k, hk'⟩) := by
    simp [List.get_eq_getElem, List.getElem_map]
  rw [hg, hidx, hpar]
  exact h k hk'

theorem wfEnts_applyOp {schema : Schema} {c : Ctx} (h : WfEnts c.ents) (op : Op) :
    WfEnts (applyOp schema c op).ents := by
  cases op with
  | addChild parent key rel ov =>
    simp only [applyOp]
    split_ifs with hv
    · refine wfEnts_append_new h _ _ _ _ _ _ ?_
      intro j hj
      subst hj
      simpa [handleValid] using hv
    · exact h
  | addChildWithData parent rel content =>
    simp only [applyOp]
    split_ifs with hc hv
    · exact h
    · refine wfEnts_append_new h _ _ _ _ _ _ ?_
      intro j hj
      subst hj
      simpa [handleValid] using hv
    · exact h
  | addFeatureValues ent name vals =>
    simp only [applyOp]
    split
    · exact h
    · split_ifs with hany
      · exact h
      · cases ent with
        | none => exact h
        | some k =>
          exact wfEnts_map _ (fun r => by split <;> rfl) (fun r => by split <;> rfl) h
  | addData ent dlabel lang content =>
    simp only [applyOp]
    split_ifs with hc
    · exact h
    · cases ent with
      | none => exact h
      | some k =>
        exact wfEnts_map _ (fun r => by split <;> rfl) (fun r => by split <;> rfl) h

theorem wfEnts_foldCtx (schema : Schema) (ops : List Op) : WfEnts (foldCtx schema ops).ents := by
  suffices h : ∀ (ops : List Op) (c : Ctx), WfEnts c.ents →
      WfEnts (ops.foldl (stepOp schema) c).ents from h ops {} wfEnts_nil
  intro ops
  induction ops with
  | nil => intro c hc; exact hc
  | cons op rest ih =>
    intro c hc
    refine ih _ ?_
    rw [stepOp]
    split_ifs with he
    · exact hc
    · exact wfEnts_applyOp hc op

theorem insertEnt_pairwise_lt {acc : List EntRec} {e : EntRec}
    (hs : acc.Pairwise (fun a b => a.idx < b.idx)) (hb : ∀ a ∈ acc, a.idx < e.idx) :
    (insertEnt acc e).Pairwise (fun a b => a.idx < b.idx) := by
  induction acc with
  | nil => simp [insertEnt]
  | cons a rest ih =>
    rw [insertEnt]
    rw [List.pairwise_cons] at hs
    by_cases hk : sameKey a e
    · rw [if_pos hk]
      rw [List.pairwise_cons]
      exact ⟨fun b hbmem => hs.1 b hbmem, hs.2⟩
    · rw [if_neg hk]
      rw [List.pairwise_cons]
      constructor
      · intro b hbmem
        rcases mem_insertEnt_src hbmem with ⟨a', ha', _, hidx, _, _⟩ | rfl
        · rw [hidx]
          exact hs.1 a' ha'
        · exact hb a (List.mem_cons_self _ _)
      · exact ih hs.2 (fun x hx => hb x (List.mem_cons_of_mem _ hx))

theorem foldl_insertEnt_pairwise_lt :
    ∀ (l acc : List EntRec), acc.Pairwise (fun a b => a.idx < b.idx) →
      (∀ a ∈ acc, ∀ x ∈ l, a.idx < x.idx) →
      l.Pairwise (fun a b => a.idx < b.idx) →
      (l.foldl insertEnt acc).Pairwise (fun a b => a.idx < b.idx) := by
  intro l
  induction l with
  | nil => intro acc h _ _; exact h
  | cons e rest ih =>
    intro acc hacc hcross hl
    rw [List.pairwise_cons] at hl
    refine ih (insertEnt acc e) ?_ ?_ hl.2
    · exact insertEnt_pairwise_lt hacc (fun a ha => hcross a ha e (List.mem_cons_self _ _))
    · intro a' ha' x hx
      rcases mem_insertEnt_src ha' with ⟨a, ha, _, hidx, _, _⟩ | rfl
      · rw [hidx]
        exact hcross a ha x (List.mem_cons_of_mem _ hx)
      · exact hl.1 x hx

theorem mergeEnts_pairwise_lt {l : List EntRec}
    (hl : l.Pairwise (fun a b => a.idx < b.idx)) :
    (mergeEnts l).Pairwise (fun a b => a.idx < b.idx) :=
  foldl_insertEnt_pairwise_lt l [] (by simp) (by simp) hl

theorem insertEnt_adds_le {acc : List EntRec} {e : EntRec}
    (hb : ∀ a ∈ acc, a.idx ≤ e.idx) :
    ∃ r ∈ insertEnt acc e, keyOf r = keyOf e ∧ r.idx ≤ e.idx := by
  induction acc with
  | nil => exact ⟨e, List.mem_singleton.mpr rfl, rfl, le_refl _⟩
  | cons a rest ih =>
    rw [insertEnt]
    by_cases hk : sameKey a e
    · rw [if_pos hk]
      rw [sameKey] at hk
      exact ⟨_, List.mem_cons_self _ _, hk, hb a (List.mem_cons_self _ _)⟩
    · rw [if_neg hk]
      obtain ⟨r, hr, hkr, hle⟩ := ih (fun x hx => hb x (List.mem_cons_of_mem _ hx))
      exact ⟨r, List.mem_cons_of_mem _ hr, hkr, hle⟩

theorem insertEnt_preserve_idx {acc : List EntRec} (e : EntRec)
    {k : Option ℕ × EntityId × Rel × Option String} {b : ℕ}
    (h : ∃ r ∈ acc, keyOf r = k ∧ r.idx ≤ b) :
    ∃ r ∈ insertEnt acc e, keyOf r = k ∧ r.idx ≤ b := by
  induction acc with
  | nil =>
    obtain ⟨r, hr, _⟩ := h
    exact absurd hr (List.not_mem_nil _)
  | cons a rest ih =>
    obtain ⟨r, hr, hk, hle⟩ := h
    rw [insertEnt]
    by_cases hke : sameKey a e
    · rw [if_pos hke]
      rcases List.mem_cons.mp hr with rfl | hmem
      · exact ⟨_, List.mem_cons_self _ _, hk, hle⟩
      · exact ⟨r, List.mem_cons_of_mem _ hmem, hk, hle⟩
    · rw [if_neg hke]
      rcases List.mem_cons.mp hr with rfl | hmem
      · exact ⟨r, List.mem_cons_self _ _, hk, hle⟩
      · obtain ⟨r', hr', hk', hle'⟩ := ih ⟨r, hmem, hk, hle⟩
        exact ⟨r', List.mem_cons_of_mem _ hr', hk', hle'⟩

theorem mergeEnts_covers_le :
    ∀ (l : List EntRec), l.Pairwise (fun a b => a.idx < b.idx) →
      ∀ acc : List EntRec, (∀ a ∈ acc, ∀ x ∈ l, a.idx ≤ x.idx) →
      ∀ e, ((∃ r ∈ acc, keyOf r = keyOf e ∧ r.idx ≤ e.idx) ∨ e ∈ l) →
      ∃ r ∈ l.foldl insertEnt acc, keyOf r = keyOf e ∧ r.idx ≤ e.idx := by
  intro l
  induction l with
  | nil =>
    intro _ acc _ e h
    rcases h with h | h
    · exact h
    · exact absurd h (List.not_mem_nil _)
  | cons x rest ih =>
    intro hl acc hbound e h
    rw [List.pairwise_cons] at hl
    have hbound' : ∀ a ∈ insertEnt acc x, ∀ y ∈ rest, a.idx ≤ y.idx := by
      intro a ha y hy
      rcases mem_insertEnt_src ha with ⟨a', ha', _, hidx, _, _⟩ | rfl
      · rw [hidx]
        exact hbound a' ha' y (List.mem_cons_of_mem _ hy)
      · exact le_of_lt (hl.1 y hy)
    rcases h with h | h
    · exact ih hl.2 (insertEnt acc x) hbound' e (Or.inl (insertEnt_preserve_idx x h))
    · rcases List.mem_cons.mp h with rfl | hmem
      · refine ih hl.2 (insertEnt acc e) hbound' e (Or.inl ?_)
        exact insertEnt_adds_le (fun a ha => hbound a ha e (List.mem_cons_self _ _))
      · exact ih hl.2 (insertEnt acc x) hbound' e (Or.inr hmem)

theorem wfEnts_pairwise_lt {l : List EntRec} (h : WfEnts l) :
    l.Pairwise (fun a b => a.idx < b.idx) := by
  rw [List.pairwise_iff_get]
  intro i j hij
  have hi := (h i.1 i.2).1
  have hj := (h j.1 j.2).1
  simp only [Fin.eta] at hi hj
  rw [hi, hj]
  exact hij

theorem pairwise_lt_pos {l : List EntRec} (h : l.Pairwise (fun a b => a.idx < b.idx))
    {a b : EntRec} (ha : a ∈ l) (hb : b ∈ l) (hab : a.idx < b.idx) :
    ∃ (i j : ℕ) (hi : i < l.length) (hj : j < l.length),
      i < j ∧ l.get ⟨i, hi⟩ = a ∧ l.get ⟨j, hj⟩ = b := by
  obtain ⟨⟨i, hi⟩, hga⟩ := List.mem_iff_get.mp ha
  obtain ⟨⟨j, hj⟩, hgb⟩ := List.mem_iff_get.mp hb
  have hpg := List.pairwise_iff_get.mp h
  rcases lt_trichotomy i j with hij | rfl | hij
  · exact ⟨i, j, hi, hj, hij, hga, hgb⟩
  · exfalso
    have hae : a = b := by rw [← hga, ← hgb]
    rw [hae] at hab
    exact lt_irrefl _ hab
  · exfalso
    have hlt := hpg ⟨j, hj⟩ ⟨i, hi⟩ hij
    rw [hga, hgb] at hlt
    omega

theorem merged_parent_precedes (schema : Schema) (ops : List Op) :
    ∀ (m : ℕ) (hm : m < (mergeEnts (foldCtx schema ops).ents).length) (j : ℕ),
      ((mergeEnts (foldCtx schema ops).ents).get ⟨m, hm⟩).parent = some j →
      ∃ (m' : ℕ) (hm' : m' < (mergeEnts (foldCtx schema ops).ents).length)
        (hj : j < (foldCtx schema ops).ents.length),
        m' < m ∧ ((mergeEnts (foldCtx schema ops).ents).get ⟨m', hm'⟩).sha =
          ((foldCtx schema ops).ents.get ⟨j, hj⟩).sha := by
  intro m hm j hpar
  have hwf : WfEnts (foldCtx schema ops).ents := wfEnts_foldCtx schema ops
  have hsin : (foldCtx schema ops).ents.Pairwise (fun a b => a.idx < b.idx) :=
    wfEnts_pairwise_lt hwf
  have hsm : (mergeEnts (foldCtx schema ops).ents).Pairwise (fun a b => a.idx < b.idx) :=
    mergeEnts_pairwise_lt hsin
  have hrmem : (mergeEnts (foldCtx schema ops).ents).get ⟨m, hm⟩ ∈
      mergeEnts (foldCtx schema ops).ents := List.get_mem _ _ _
  obtain ⟨esrc, hesrc, hkey, hidx⟩ := mergeEnts_src hrmem
  have hpar_src : esrc.parent = some j := by
    have hpp : ((mergeEnts (foldCtx schema ops).ents).get ⟨m, hm⟩).parent = esrc.parent := by
      simp only [keyOf, Prod.mk.injEq] at hkey
      exact hkey.1
    rw [← hpp, hpar]
  obtain ⟨⟨k, hk⟩, hgk⟩ := List.mem_iff_get.mp hesrc
  have hkidx : esrc.idx = k := by
    rw [← hgk]
    exact (hwf k hk).1
  have hjk : j < k := (hwf k hk).2 j (by rw [hgk]; exact hpar_src)
  have hjlen : j < (foldCtx schema ops).ents.length := lt_trans hjk hk
  have hpentidx : ((foldCtx schema ops).ents.get ⟨j, hjlen⟩).idx = j := (hwf j hjlen).1
  obtain ⟨rp, hrpmem, hrpkey, hrple⟩ :=
    mergeEnts_covers_le (foldCtx schema ops).ents hsin [] (by simp)
      ((foldCtx schema ops).ents.get ⟨j, hjlen⟩) (Or.inr (List.get_mem _ _ _))
  have hlt : rp.idx < ((mergeEnts (foldCtx schema ops).ents).get ⟨m, hm⟩).idx := by
    rw [hidx, hkidx]
    rw [hpentidx] at hrple
    omega
  obtain ⟨i', j', hi', hj', hij', hgi', hgj'⟩ := pairwise_lt_pos hsm hrpmem hrmem hlt
  have hj'm : j' = m := by
    rcases lt_trichotomy j' m with hlt2 | he | hlt2
    · exfalso
      have hx := (List.pairwise_iff_get.mp hsm) ⟨j', hj'⟩ ⟨m, hm⟩ hlt2
      rw [hgj'] at hx
      exact lt_irrefl _ hx
    · exact he
    · exfalso
      have hx := (List.pairwise_iff_get.mp hsm) ⟨m, hm⟩ ⟨j', hj'⟩ hlt2
      rw [hgj'] at hx
      exact lt_irrefl _ hx
  refine ⟨i', hi', hjlen, ?_, ?_⟩
  · rw [← hj'm]
    exact hij'
  · rw [hgi']
    simp only [keyOf, Prod.mk.injEq] at hrpkey
    exact hrpkey.2.1

theorem chainOf_head {rootSha : String} {rootFn : Option String} {ents : List EntRec}
    {p : Option ℕ} {ent : ChainEnt}
    (h : (chainOf rootSha rootFn ents p).head? = some ent) :
    (p = none ∧ ent.sha = .key rootSha) ∨
    ∃ (j : ℕ) (hj : j < ents.length), p = some j ∧ ent.sha = (ents.get ⟨j, hj⟩).sha := by
  cases p with
  | none =>
    left
    refine ⟨rfl, ?_⟩
    rw [chainOf] at h
    simp only [chainAux, List.head?_cons, Option.some.injEq] at h
    rw [← h]
  | some j =>
    right
    rw [chainOf] at h
    cases ents with
    | nil => simp [chainAux] at h
    | cons a tl =>
      rw [show (a :: tl).length = tl.length + 1 from rfl, chainAux] at h
      cases hje : (a :: tl)[j]? with
      | none =>
        rw [hje] at h
        simp at h
      | some rec =>
        rw [hje] at h
        simp only [List.head?_cons, Option.some.injEq] at h
        obtain ⟨hj, hrec⟩ := List.getElem?_eq_some.mp hje
        refine ⟨j, hj, rfl, ?_⟩
        rw [← h]
        simp [List.get_eq_getElem, hrec]

theorem mapped_events_parent_precedes (schema : Schema) (ops : List Op) (rootSha : String)
    (m : ℕ) (hm : m < (mergeEnts (foldCtx schema ops).ents).length) (ent : ChainEnt)
    (hent : (toEvent rootSha (filenameOfLog (foldCtx schema ops).rootFeat)
      (foldCtx schema ops).ents
      ((mergeEnts (foldCtx schema ops).ents).get ⟨m, hm⟩)).parent.head? = some ent) :
    ent.sha = .key rootSha ∨
    ∃ (m' : ℕ) (hm' : m' < (mergeEnts (foldCtx schema ops).ents).length), m' < m ∧
      (toEvent rootSha (filenameOfLog (foldCtx schema ops).rootFeat) (foldCtx schema ops).ents
        ((mergeEnts (foldCtx schema ops).ents).get ⟨m', hm'⟩)).sha = ent.sha := by
  simp only [toEvent] at hent
  rcases chainOf_head hent with ⟨hp, hsha⟩ | ⟨j, hj, hp, hsha⟩
  · exact Or.inl hsha
  · right
    obtain ⟨m', hm', hj2, hlt, hshaeq⟩ := merged_parent_precedes schema ops m hm j hp
    refine ⟨m', hm', hlt, ?_⟩
    simp only [toEvent]
    rw [hshaeq, hsha]

/-- C2 (amended): the assembled events list is in entity-creation order
(the order the add-child operations were issued) with the root's event
first when present, and a parent's event always precedes its
descendants' events: every event whose parent chain names a non-root
immediate parent is preceded, strictly earlier in the list, by the
event carrying that parent's identifier.  The list is not in general in
pre-order — a parent need not be immediately followed by its first
child's subtree (see the counterexample). -/
theorem events_parent_precedes (schema : Schema) (ops : List Op) (rootSha : String)
    (i : ℕ) (hi : i < (runJob schema ops none rootSha).events.length) (ent : ChainEnt)
    (hent : ((runJob schema ops none rootSha).events.get ⟨i, hi⟩).parent.head? = some ent) :
    ent.sha = .key rootSha ∨
    ∃ (j : ℕ) (hj : j < (runJob schema ops none rootSha).events.length),
      j < i ∧ ((runJob schema ops none rootSha).events.get ⟨j, hj⟩).sha = ent.sha := by
  cases herr : (foldCtx schema ops).err with
  | some e =>
    exfalso
    have hlen : (runJob schema ops none rootSha).events.length = 0 := by
      simp [runJob, herr]
    exact Nat.not_lt_zero i (hlen ▸ hi)
  | none =>
    by_cases h1 : (foldCtx schema ops).rootFeat = [] ∧ (foldCtx schema ops).rootData = []
    · have hev : (runJob schema ops none rootSha).events =
          (mergeEnts (foldCtx schema ops).ents).map
            (toEvent rootSha (filenameOfLog (foldCtx schema ops).rootFeat)
              (foldCtx schema ops).ents) := by
        simp only [runJob, herr, assemble, if_pos h1]
        split_ifs with h2
        · simpa using h2.symm
        · simp
      have hi' : i < ((mergeEnts (foldCtx schema ops).ents).map
          (toEvent rootSha (filenameOfLog (foldCtx schema ops).rootFeat)
            (foldCtx schema ops).ents)).length := by
        rw [← hev]
        exact hi
      have hm : i < (mergeEnts (foldCtx schema ops).ents).length := by
        simpa using hi'
      have hgeti : (runJob schema ops none rootSha).events.get ⟨i, hi⟩ =
          toEvent rootSha (filenameOfLog (foldCtx schema ops).rootFeat)
            (foldCtx schema ops).ents
            ((mergeEnts (foldCtx schema ops).ents).get ⟨i, hm⟩) := by
        rw [List.get_of_eq hev]
        simp [List.get_eq_getElem, List.getElem_map]
      rw [hgeti] at hent
      rcases mapped_events_parent_precedes schema ops rootSha i hm ent hent with h | ⟨m', hm', hlt, hsha⟩
      · exact Or.inl h
      · right
        have hm'ev : m' < (runJob schema ops none rootSha).events.length := by
          rw [hev]
          simpa using hm'
        refine ⟨m', hm'ev, hlt, ?_⟩
        have hgetm : (runJob schema ops none rootSha).events.get ⟨m', hm'ev⟩ =
            toEvent rootSha (filenameOfLog (foldCtx schema ops).rootFeat)
              (foldCtx schema ops).ents
              ((mergeEnts (foldCtx schema ops).ents).get ⟨m', hm'⟩) := by
          rw [List.get_of_eq hev]
          simp [List.get_eq_getElem, List.getElem_map]
        rw [hgetm]
        exact hsha
    · have hev : (runJob schema ops none rootSha).events =
          ({parent := [], sha := EntityId.key rootSha, relationship := [], overrideSha := none,
            features := groupFeats (foldCtx schema ops).rootFeat,
            data := (foldCtx schema ops).rootData.dedup} : Event) ::
          (mergeEnts (foldCtx schema ops).ents).map
            (toEvent rootSha (filenameOfLog (foldCtx schema ops).rootFeat)
              (foldCtx schema ops).ents) := by
        simp only [runJob, herr, assemble, if_neg h1]
        split_ifs with h2
        · exfalso
          simpa using h2
        · simp
      cases i with
      | zero =>
        exfalso
        have hget0 : (runJob schema ops none rootSha).events.get ⟨0, hi⟩ =
            ({parent := [], sha := EntityId.key rootSha, relationship := [], overrideSha := none,
              features := groupFeats (foldCtx schema ops).rootFeat,
              data := (foldCtx schema ops).rootData.dedup} : Event) := by
          rw [List.get_of_eq hev]
          rfl
        rw [hget0] at hent
        simp at hent
      | succ m =>
        have hm : m < (mergeEnts (foldCtx schema ops).ents).length := by
          have h2 := hi
          rw [hev] at h2
          simpa using h2
        have hgeti : (runJob schema ops none rootSha).events.get ⟨m + 1, hi⟩ =
            toEvent rootSha (filenameOfLog (foldCtx schema ops).rootFeat)
              (foldCtx schema ops).ents
              ((mergeEnts (foldCtx schema ops).ents).get ⟨m, hm⟩) := by
          rw [List.get_of_eq hev]
          simp [List.get_eq_getElem, List.getElem_map]
        rw [hgeti] at hent
        rcases mapped_events_parent_precedes schema ops rootSha m hm ent hent with h | ⟨m', hm', hlt, hsha⟩
        · exact Or.inl h
        · right
          have hm'ev : m' + 1 < (runJob schema ops none rootSha).events.length := by
            rw [hev]
            simpa using hm'
          refine ⟨m' + 1, hm'ev, by omega, ?_⟩
          have hgetm : (runJob schema ops none rootSha).events.get ⟨m' + 1, hm'ev⟩ =
              toEvent rootSha (filenameOfLog (foldCtx schema ops).rootFeat)
                (foldCtx schema ops).ents
                ((mergeEnts (foldCtx schema ops).ents).get ⟨m', hm'⟩) := by
            rw [List.get_of_eq hev]
            simp [List.get_eq_getElem, List.getElem_map]
          rw [hgetm]
          exact hsha

theorem c2_witness :
    (⟨.key "child", [], none, none⟩ : ChainEnt).sha = .key "test_entity" ∨
    ∃ (j : ℕ) (hj : j < (runJob dummySchema dpg2Ops none "test_entity").events.length),
      j < 2 ∧ ((runJob dummySchema dpg2Ops none "test_entity").events.get ⟨j, hj⟩).sha =
        (⟨.key "child", [], none, none⟩ : ChainEnt).sha :=
  events_parent_precedes dummySchema dpg2Ops "test_entity" 2 (by decide)
    ⟨.key "child", [], none, none⟩ (by decide)

end AzulRunner
